import Mathlib

/-!
The HTML inliner of dns-benchgo, `frontend/main.go`.

A shallow embedding of `src/frontend/main.go` and the properties of it that
the specification states.

Modelling conventions.

* `html.Node` is a tree whose nodes own the ordered list of their children
  (`FirstChild` / `NextSibling` chains become `List Node`).  A pointer
  `*html.Node` into the document is a `Path`: the list of child indices that
  leads from the root of the document to the node.  In-place mutation
  (`AppendChild` through a pointer) is explicit state passing: the operation
  returns the new document.  Appending never renumbers an existing child, so a
  path keeps denoting the same node across the mutations of this program.
* `[]byte` and `string` are both `String`; an `error` is its message.
* The filesystem is a `World`: the outcome of `ioutil.ReadFile` for every
  path, together with the log of the paths that have been read.
* `html.Parse` and `html.Render` belong to `golang.org/x/net/html`; they are
  parameters of the functions that call them.
* `filepath.Clean` and `filepath.Join` are the Unix versions of the Go
  standard library.
* Console output (`fmt.Println`, `fmt.Printf`) is not modelled.
-/

namespace Frontend

/-! ## Data model -/

/-- Node kinds of `html.NodeType`. -/
inductive NodeType where
  | ErrorNode
  | TextNode
  | DocumentNode
  | ElementNode
  | CommentNode
  | DoctypeNode
  | RawNode
  deriving DecidableEq, Repr

/-- An attribute of an element, `html.Attribute`. -/
structure Attribute where
  Namespace : String
  Key : String
  Val : String
  deriving DecidableEq, Repr

/-- A node of the document tree, `html.Node`, with the children it owns.
The Go field `Type` is called `Typ` here. -/
inductive Node where
  | mk (Typ : NodeType) (DataAtom : Nat) (Data : String) (Namespace : String)
      (Attr : List Attribute) (children : List Node) : Node

/-- A pointer to a node of a document: child indices from the root. -/
abbrev Path := List Nat

/-- Field `Type` of a node. -/
def Node.Typ : Node → NodeType
  | .mk t _ _ _ _ _ => t

/-- Field `DataAtom` of a node. -/
def Node.DataAtom : Node → Nat
  | .mk _ a _ _ _ _ => a

/-- Field `Data` of a node: the tag name of an element, the text of a text node. -/
def Node.Data : Node → String
  | .mk _ _ d _ _ _ => d

/-- Field `Namespace` of a node. -/
def Node.Namespace : Node → String
  | .mk _ _ _ ns _ _ => ns

/-- Field `Attr` of a node. -/
def Node.Attr : Node → List Attribute
  | .mk _ _ _ _ a _ => a

/-- The children of a node, first to last. -/
def Node.children : Node → List Node
  | .mk _ _ _ _ _ cs => cs

/-- The node a path points to, when the path is valid in the document. -/
def Node.get? : Node → Path → Option Node
  | n, [] => some n
  | .mk _ _ _ _ _ cs, i :: p =>
    match cs[i]? with
    | some c => Node.get? c p
    | none => none

/-- Dereference of a pointer held by the program. -/
def Node.deref (doc : Node) (p : Path) : Node :=
  (doc.get? p).getD doc

/-- The method `(*html.Node).AppendChild`: `c` becomes the last child of `n`. -/
def Node.AppendChild : Node → Node → Node
  | .mk t a d ns attr cs, c => .mk t a d ns attr (cs ++ [c])

/-- The effect on the document of `p.AppendChild(c)` for the pointer `p`. -/
def Node.appendChildAt : Node → Path → Node → Node
  | n, [], c => n.AppendChild c
  | .mk t a d ns attr cs, i :: p, c =>
    match cs[i]? with
    | some k => .mk t a d ns attr (cs.set i (Node.appendChildAt k p c))
    | none => .mk t a d ns attr cs

/-! ## Filesystem -/

/-- The filesystem as the program sees it. -/
structure World where
  /-- the outcome of reading each path: the contents, or the error message -/
  files : String → Except String String
  /-- the paths read so far, oldest first -/
  reads : List String

/-- The call `ioutil.ReadFile(name)`. -/
def ReadFile (name : String) (w : World) : Except String String × World :=
  (w.files name, { w with reads := w.reads ++ [name] })

/-! ## `path/filepath` (Unix) -/

/-- The path elements between the separators, as `strings.Split(path, "/")`. -/
def filepath.splitSlash : List Char → List (List Char)
  | [] => [[]]
  | c :: cs =>
    if c = '/' then [] :: filepath.splitSlash cs
    else
      match filepath.splitSlash cs with
      | [] => [[c]]
      | x :: xs => (c :: x) :: xs

/-- One element of the path processed by `Clean`; `out` holds the elements
kept so far, the most recent first.  Empty elements and `.` are dropped; `..`
removes the element before it when there is one that is not `..`, is kept in
a relative path otherwise, and is dropped at the root of a rooted path. -/
def filepath.cleanStep (rooted : Bool) (out : List (List Char)) (elem : List Char) :
    List (List Char) :=
  if elem = [] ∨ elem = ['.'] then out
  else if elem = ['.', '.'] then
    match out with
    | top :: rest =>
      if top ≠ ['.', '.'] then rest
      else if !rooted then elem :: out
      else out
    | [] => if !rooted then [elem] else out
  else elem :: out

/-- Lexical path cleaning, `filepath.Clean`. -/
def filepath.Clean (path : String) : String :=
  if path = "" then "."
  else
    let rooted : Bool := path.toList.head? = some '/'
    let out := (filepath.splitSlash path.toList).foldl (filepath.cleanStep rooted) []
    let body := String.mk (List.intercalate ['/'] out.reverse)
    if rooted then "/" ++ body
    else if out = [] then "."
    else body

/-- Joining of path elements, `filepath.Join`: the elements from the first
non-empty one on, separated by `/`, cleaned. -/
def filepath.Join : List String → String
  | [] => ""
  | e :: rest =>
    if e ≠ "" then filepath.Clean (String.intercalate "/" (e :: rest))
    else filepath.Join rest

/-! ## The program -/

/-- The constant `distRoot`. -/
def distRoot : String := "./web/dist"

/-- State of the closure `findNodes`: the captured variables `head` and `body`. -/
abbrev Found := Option Path × Option Path

mutual
/-- The closure `findNodes` of `getProcessedHTML`, called on the node `n`
that the pointer `ptr` denotes. -/
def findNodes.go : Node → Path → Found → Found
  | .mk t _ d _ _ cs, ptr, (head, body) =>
    let st : Found :=
      if t = NodeType.ElementNode then
        if d = "head" then (some ptr, body)
        else if d = "body" then (head, some ptr)
        else (head, body)
      else (head, body)
    findNodes.children cs ptr 0 st
/-- The loop `for c := n.FirstChild; c != nil; c = c.NextSibling` of
`findNodes`, at the child of index `i`. -/
def findNodes.children : List Node → Path → Nat → Found → Found
  | [], _, _, st => st
  | c :: rest, ptr, i, st =>
    findNodes.children rest ptr (i + 1) (findNodes.go c (ptr ++ [i]) st)
end

/-- The statements `var head, body *html.Node; ...; findNodes(doc)`. -/
def findNodes (doc : Node) : Found :=
  findNodes.go doc [] (none, none)

/-- The attribute loop of `collectScripts`: the first attribute `src` with a
non-empty value is appended, and the loop breaks. -/
def collectScripts.attrs : List Attribute → List String → List String
  | [], scripts => scripts
  | attr :: rest, scripts =>
    if attr.Key = "src" ∧ attr.Val ≠ "" then scripts ++ [attr.Val]
    else collectScripts.attrs rest scripts

mutual
/-- The closure `traverse` of `collectScripts`; the captured slice `scripts`
is passed explicitly. -/
def collectScripts.traverse : Node → List String → List String
  | .mk t _ d _ attr cs, scripts =>
    let scripts1 :=
      if t = NodeType.ElementNode ∧ d = "script" then collectScripts.attrs attr scripts
      else scripts
    collectScripts.children cs scripts1
/-- The loop over the children in `traverse` of `collectScripts`. -/
def collectScripts.children : List Node → List String → List String
  | [], scripts => scripts
  | c :: rest, scripts =>
    collectScripts.children rest (collectScripts.traverse c scripts)
end

/-- The function `collectScripts`. -/
def collectScripts (head : Node) : List String :=
  collectScripts.traverse head []

/-- The attribute loop of `collectStylesheets`, on the local variables
`isStylesheet` and `href`. -/
def collectStylesheets.attrs : List Attribute → Bool × String → Bool × String
  | [], st => st
  | attr :: rest, (isStylesheet, href) =>
    let isStylesheet1 :=
      if attr.Key = "rel" ∧ attr.Val = "stylesheet" then true else isStylesheet
    let href1 :=
      if attr.Key = "href" ∧ attr.Val ≠ "" then attr.Val else href
    collectStylesheets.attrs rest (isStylesheet1, href1)

mutual
/-- The closure `traverse` of `collectStylesheets`; the captured slice
`stylesheets` is passed explicitly. -/
def collectStylesheets.traverse : Node → List String → List String
  | .mk t _ d _ attr cs, stylesheets =>
    let stylesheets1 :=
      if t = NodeType.ElementNode ∧ d = "link" then
        match collectStylesheets.attrs attr (false, "") with
        | (isStylesheet, href) =>
          if isStylesheet = true ∧ href ≠ "" then stylesheets ++ [href]
          else stylesheets
      else stylesheets
    collectStylesheets.children cs stylesheets1
/-- The loop over the children in `traverse` of `collectStylesheets`. -/
def collectStylesheets.children : List Node → List String → List String
  | [], stylesheets => stylesheets
  | c :: rest, stylesheets =>
    collectStylesheets.children rest (collectStylesheets.traverse c stylesheets)
end

/-- The function `collectStylesheets`. -/
def collectStylesheets (head : Node) : List String :=
  collectStylesheets.traverse head []

/-- The function `embedScript`: the error it returns, the document and the
filesystem after the call. -/
def embedScript (doc : Node) (body : Path) (src : String) (w : World) :
    Option String × Node × World :=
  let scriptPath := filepath.Join [distRoot, filepath.Clean src]
  match ReadFile scriptPath w with
  | (.error err, w1) => (some ("无法读取脚本文件: " ++ err), doc, w1)
  | (.ok content, w1) =>
    let scriptNode := Node.mk NodeType.ElementNode 0 "script" "" [] []
    let textNode := Node.mk NodeType.TextNode 0 content "" [] []
    let scriptNode := scriptNode.AppendChild textNode
    (none, doc.appendChildAt body scriptNode, w1)

/-- The function `embedStylesheet`: the error it returns, the document and
the filesystem after the call. -/
def embedStylesheet (doc : Node) (head : Path) (href : String) (w : World) :
    Option String × Node × World :=
  let cssPath := filepath.Join [distRoot, filepath.Clean href]
  match ReadFile cssPath w with
  | (.error err, w1) => (some ("无法读取CSS文件: " ++ err), doc, w1)
  | (.ok content, w1) =>
    let styleNode := Node.mk NodeType.ElementNode 0 "style" "" [] []
    let textNode := Node.mk NodeType.TextNode 0 content "" [] []
    let styleNode := styleNode.AppendChild textNode
    (none, doc.appendChildAt head styleNode, w1)

/-- The loop `for _, src := range scripts` of `getProcessedHTML`: an error of
`embedScript` is printed and the loop goes on. -/
def embedScripts (body : Path) : List String → Node × World → Node × World
  | [], st => st
  | src :: rest, (doc, w) =>
    match embedScript doc body src w with
    | (_, doc1, w1) => embedScripts body rest (doc1, w1)

/-- The loop `for _, href := range stylesheets` of `getProcessedHTML`: an
error of `embedStylesheet` is printed and the loop goes on. -/
def embedStylesheets (head : Path) : List String → Node × World → Node × World
  | [], st => st
  | href :: rest, (doc, w) =>
    match embedStylesheet doc head href w with
    | (_, doc1, w1) => embedStylesheets head rest (doc1, w1)

/-- The inlining steps of `getProcessedHTML` (from `scripts :=
collectScripts(head)` to the end of the stylesheet loop), for the pointers
`head` and `body` into `doc`. -/
def inlineAssets (doc : Node) (head body : Path) (w : World) : Node × World :=
  let scripts := collectScripts (doc.deref head)
  match embedScripts body scripts (doc, w) with
  | (doc1, w1) =>
    let stylesheets := collectStylesheets (doc1.deref head)
    embedStylesheets head stylesheets (doc1, w1)

/-- The function `getProcessedHTML`: the returned string or error, and the
filesystem after the call. -/
def getProcessedHTML (Parse : String → Except String Node)
    (Render : Node → Except String String) (w : World) :
    Except String String × World :=
  let htmlPath := filepath.Join [distRoot, "index.html"]
  match ReadFile htmlPath w with
  | (.error err, w1) => (.error ("无法读取HTML文件: " ++ err), w1)
  | (.ok content, w1) =>
    match Parse content with
    | .error err => (.error ("解析HTML失败: " ++ err), w1)
    | .ok doc =>
      match findNodes doc with
      | (none, _) => (.ok content, w1)
      | (some _, none) => (.ok content, w1)
      | (some head, some body) =>
        match inlineAssets doc head body w1 with
        | (doc2, w2) =>
          match Render doc2 with
          | .error err => (.error ("渲染HTML失败: " ++ err), w2)
          | .ok s => (.ok s, w2)

/-- What a handler has written to its `http.ResponseWriter`. -/
structure Response where
  status : Nat
  contentType : String
  body : String
  deriving DecidableEq, Repr

/-- The library function `http.Error`: a plain-text reply with the given
status, the message followed by a newline. -/
def http.Error (msg : String) (code : Nat) : Response :=
  { status := code, contentType := "text/plain; charset=utf-8", body := msg ++ "\n" }

/-- The library function `http.NotFound`. -/
def http.NotFound : Response :=
  http.Error "404 page not found" 404

/-- The function `homeHandler`, for a request whose `URL.Path` is `urlPath`. -/
def homeHandler (Parse : String → Except String Node)
    (Render : Node → Except String String) (urlPath : String) (w : World) :
    Response × World :=
  if urlPath ≠ "/" then (http.NotFound, w)
  else
    match getProcessedHTML Parse Render w with
    | (.error err, w1) => (http.Error ("处理HTML时出错: " ++ err) 500, w1)
    | (.ok htmlContent, w1) =>
      ({ status := 200, contentType := "text/html; charset=utf-8", body := htmlContent }, w1)

/-! ## Definitions used to state the properties -/

mutual
/-- The nodes of the subtree of `n` in depth-first pre-order (document order). -/
def preorder : Node → List Node
  | .mk t a d ns attr cs => Node.mk t a d ns attr cs :: preorderList cs
/-- The nodes of the subtrees of a list of siblings, in document order. -/
def preorderList : List Node → List Node
  | [] => []
  | c :: rest => preorder c ++ preorderList rest
end

mutual
/-- The nodes of the subtree of `n` in depth-first pre-order, each with its
path from `n`. -/
def preorderAt : Node → List (Path × Node)
  | .mk t a d ns attr cs => ([], Node.mk t a d ns attr cs) :: preorderAtList cs 0
/-- The nodes of the subtrees of the siblings `cs`, the first of which is the
child of index `i`, in document order, each with its path from the parent. -/
def preorderAtList : List Node → Nat → List (Path × Node)
  | [], _ => []
  | c :: rest, i =>
    (preorderAt c).map (fun pn => (i :: pn.1, pn.2)) ++ preorderAtList rest (i + 1)
end

/-- An element node with the tag name `name`. -/
def Node.isElementNamed (name : String) (n : Node) : Bool :=
  decide (n.Typ = NodeType.ElementNode ∧ n.Data = name)

/-- The paths of the elements named `name` of a document, in depth-first
pre-order. -/
def elementsNamed (name : String) (doc : Node) : List Path :=
  ((preorderAt doc).filter (fun pn => pn.2.isElementNamed name)).map Prod.fst

/-- The paths, from their parent, of the elements named `name` in the
subtrees of the siblings `cs`, the first of which is the child of index `i`. -/
def elementsNamedList (name : String) (cs : List Node) (i : Nat) : List Path :=
  ((preorderAtList cs i).filter (fun pn => pn.2.isElementNamed name)).map Prod.fst

/-- The script reference of a node, in the words of the specification: for a
script element, the value of its first attribute `src` whose value is not
empty; nothing for any other node. -/
def scriptRef (n : Node) : Option String :=
  if n.Typ = NodeType.ElementNode ∧ n.Data = "script" then
    (n.Attr.find? (fun a => decide (a.Key = "src" ∧ a.Val ≠ ""))).map Attribute.Val
  else none

/-- The stylesheet reference of a node, in the words of the specification:
for a link element that has an attribute `rel` with the value `stylesheet`
and an attribute `href` with a non-empty value, the value of the last such
`href`; nothing for any other node. -/
def stylesheetRef (n : Node) : Option String :=
  if n.Typ = NodeType.ElementNode ∧ n.Data = "link" ∧
      (∃ a ∈ n.Attr, a.Key = "rel" ∧ a.Val = "stylesheet") then
    ((n.Attr.filter (fun a => decide (a.Key = "href" ∧ a.Val ≠ ""))).getLast?).map
      Attribute.Val
  else none

/-- An element with the tag name `tag`, no attribute, and a single child: a
text node holding `content`. -/
def inlinedElement (tag content : String) : Node :=
  Node.mk NodeType.ElementNode 0 tag "" []
    [Node.mk NodeType.TextNode 0 content "" [] []]

/-- The file that `embedScript` and `embedStylesheet` read for a reference. -/
def assetPath (ref : String) : String :=
  filepath.Join [distRoot, filepath.Clean ref]

/-- The elements inlined for a list of references: one element `tag` for each
reference whose file can be read, in the order of the references. -/
def inlinedFor (tag : String) (w : World) (refs : List String) : List Node :=
  refs.filterMap (fun ref =>
    match w.files (assetPath ref) with
    | .ok content => some (inlinedElement tag content)
    | .error _ => none)

/-- The path `p` seen from its ancestor `q`: the rest of `p` after `q`, when
`p` starts with `q`. -/
def Path.relativeTo : Path → Path → Option Path
  | [], p => some p
  | _ :: _, [] => none
  | i :: q, j :: p => if i = j then Path.relativeTo q p else none

/-- Appending the nodes `cs`, one after the other, to the node at `p`. -/
def Node.appendChildrenAt (doc : Node) (p : Path) (cs : List Node) : Node :=
  cs.foldl (fun d c => d.appendChildAt p c) doc

/-- The document of the specification's example: a head holding a script
reference to `/app.js` and a stylesheet link to `/app.css`, and an empty body. -/
def exampleDoc : Node :=
  .mk .DocumentNode 0 "" "" []
    [.mk .ElementNode 0 "html" "" []
      [.mk .ElementNode 0 "head" "" []
          [.mk .ElementNode 0 "script" "" [⟨"", "src", "/app.js"⟩] [],
           .mk .ElementNode 0 "link" "" [⟨"", "rel", "stylesheet"⟩, ⟨"", "href", "/app.css"⟩] []],
       .mk .ElementNode 0 "body" "" [] []]]

/-- The filesystem of the specification's example: `app.js` and `app.css` at
the asset root, nothing else. -/
def exampleWorld : World where
  files := fun name =>
    if name = "web/dist/app.js" then .ok "console.log(1)"
    else if name = "web/dist/app.css" then .ok "body\x7bcolor:red\x7d"
    else .error ("open " ++ name ++ ": no such file or directory")
  reads := []

/-- A document with two head elements and two body elements. -/
def twoHeadsDoc : Node :=
  .mk .DocumentNode 0 "" "" []
    [.mk .ElementNode 0 "html" "" []
      [.mk .ElementNode 0 "head" "" [⟨"", "id", "first"⟩] [],
       .mk .ElementNode 0 "head" "" [⟨"", "id", "second"⟩] [],
       .mk .ElementNode 0 "body" "" [⟨"", "id", "first"⟩] [],
       .mk .ElementNode 0 "body" "" [⟨"", "id", "second"⟩] []]]

/-- A frameset document: a head, and a frameset where the body would be. -/
def framesetDoc : Node :=
  .mk .DocumentNode 0 "" "" []
    [.mk .ElementNode 0 "html" "" []
      [.mk .ElementNode 0 "head" "" []
          [.mk .ElementNode 0 "script" "" [⟨"", "src", "/app.js"⟩] []],
       .mk .ElementNode 0 "frameset" "" [] []]]

/-- A path is located under the asset root `./web/dist`: it is `web/dist`
itself or starts with `web/dist/`. -/
def underDistRoot (path : String) : Bool :=
  decide (path = "web/dist") || "web/dist/".toList.isPrefixOf path.toList

/-- The filesystem of the example without `app.js`: only `app.css` can be read. -/
def cssOnlyWorld : World where
  files := fun name =>
    if name = "web/dist/app.css" then .ok "body\x7bcolor:red\x7d"
    else .error ("open " ++ name ++ ": no such file or directory")
  reads := []

/-- The head element of the example document. -/
def exampleHead : Node :=
  .mk .ElementNode 0 "head" "" []
    [.mk .ElementNode 0 "script" "" [⟨"", "src", "/app.js"⟩] [],
     .mk .ElementNode 0 "link" "" [⟨"", "rel", "stylesheet"⟩, ⟨"", "href", "/app.css"⟩] []]

/-- The body element of the example document. -/
def exampleBody : Node :=
  .mk .ElementNode 0 "body" "" [] []

/-- A path element that `Clean` keeps as it is: not empty, not `.`, not `..`,
and without a separator. -/
def filepath.Plain (elem : List Char) : Prop :=
  elem ≠ [] ∧ elem ≠ ['.'] ∧ elem ≠ ['.', '.'] ∧ '/' ∉ elem

instance filepath.Plain.instDecidable (elem : List Char) : Decidable (filepath.Plain elem) := by
  unfold filepath.Plain
  infer_instance

/-! ## Lemmas on the traversals -/

theorem collectScripts_attrs_eq (attr : List Attribute) (scripts : List String) :
    collectScripts.attrs attr scripts =
      scripts ++ ((attr.find? (fun a => decide (a.Key = "src" ∧ a.Val ≠ ""))).map
        Attribute.Val).toList := by
  induction attr with
  | nil => simp [collectScripts.attrs]
  | cons a rest ih =>
    by_cases h : a.Key = "src" ∧ a.Val ≠ ""
    · simp [collectScripts.attrs, h, List.find?]
    · have h' : decide (a.Key = "src" ∧ a.Val ≠ "") = false := by simpa using h
      rw [collectScripts.attrs, if_neg h, ih, List.find?, h']

mutual
theorem collectScripts_traverse_eq : ∀ (n : Node) (scripts : List String),
    collectScripts.traverse n scripts = scripts ++ (preorder n).filterMap scriptRef
  | .mk t a d ns attr cs, scripts => by
    rw [collectScripts.traverse, preorder, List.filterMap_cons]
    rw [collectScripts_children_eq cs]
    by_cases h : t = NodeType.ElementNode ∧ d = "script"
    · rw [if_pos h, collectScripts_attrs_eq]
      simp only [scriptRef, Node.Typ, Node.Data, Node.Attr, h, and_self, if_true]
      cases List.find? (fun a => decide (a.Key = "src" ∧ a.Val ≠ "")) attr <;> simp
    · rw [if_neg h]
      simp only [scriptRef, Node.Typ, Node.Data, h, if_false]
theorem collectScripts_children_eq : ∀ (cs : List Node) (scripts : List String),
    collectScripts.children cs scripts = scripts ++ (preorderList cs).filterMap scriptRef
  | [], scripts => by simp [collectScripts.children, preorderList]
  | c :: rest, scripts => by
    rw [collectScripts.children, collectScripts_traverse_eq c,
      collectScripts_children_eq rest, preorderList, List.filterMap_append, List.append_assoc]
end

theorem collectScripts_eq (head : Node) :
    collectScripts head = (preorder head).filterMap scriptRef := by
  rw [collectScripts, collectScripts_traverse_eq, List.nil_append]

theorem collectStylesheets_attrs_eq (attr : List Attribute) (s : Bool) (h : String) :
    collectStylesheets.attrs attr (s, h) =
      (s || attr.any (fun a => decide (a.Key = "rel" ∧ a.Val = "stylesheet")),
       (((attr.filter (fun a => decide (a.Key = "href" ∧ a.Val ≠ ""))).getLast?).map
          Attribute.Val).getD h) := by
  induction attr generalizing s h with
  | nil => simp [collectStylesheets.attrs]
  | cons a rest ih =>
    rw [collectStylesheets.attrs, ih, List.any_cons, List.filter_cons]
    by_cases h1 : a.Key = "rel" ∧ a.Val = "stylesheet"
    · rw [if_pos h1, decide_eq_true h1]
      by_cases h2 : a.Key = "href" ∧ a.Val ≠ ""
      · rw [if_pos h2, decide_eq_true h2, if_pos rfl, List.getLast?_cons]
        cases (List.filter (fun a => decide (a.Key = "href" ∧ a.Val ≠ "")) rest).getLast? <;>
          simp
      · rw [if_neg h2, decide_eq_false h2]
        simp
    · rw [if_neg h1, decide_eq_false h1]
      by_cases h2 : a.Key = "href" ∧ a.Val ≠ ""
      · rw [if_pos h2, decide_eq_true h2, if_pos rfl, List.getLast?_cons]
        cases (List.filter (fun a => decide (a.Key = "href" ∧ a.Val ≠ "")) rest).getLast? <;>
          simp
      · rw [if_neg h2, decide_eq_false h2]
        simp

theorem collectStylesheets_node_eq (attr : List Attribute) (stylesheets : List String) :
    (match collectStylesheets.attrs attr (false, "") with
      | (isStylesheet, href) =>
        if isStylesheet = true ∧ href ≠ "" then stylesheets ++ [href] else stylesheets) =
      stylesheets ++
        (if (∃ a ∈ attr, a.Key = "rel" ∧ a.Val = "stylesheet") then
          ((attr.filter (fun a => decide (a.Key = "href" ∧ a.Val ≠ ""))).getLast?).map
            Attribute.Val
        else none).toList := by
  rw [collectStylesheets_attrs_eq]
  have hany : (attr.any (fun a => decide (a.Key = "rel" ∧ a.Val = "stylesheet")) = true) ↔
      ∃ a ∈ attr, a.Key = "rel" ∧ a.Val = "stylesheet" := by
    rw [List.any_eq_true]
    constructor
    · rintro ⟨a, ha, h⟩
      exact ⟨a, ha, of_decide_eq_true h⟩
    · rintro ⟨a, ha, h⟩
      exact ⟨a, ha, decide_eq_true h⟩
  simp only [Bool.false_or]
  cases hlast : (attr.filter (fun a => decide (a.Key = "href" ∧ a.Val ≠ ""))).getLast? with
  | none =>
    by_cases hex : ∃ a ∈ attr, a.Key = "rel" ∧ a.Val = "stylesheet" <;> simp [hex]
  | some x =>
    have hx : x ∈ attr.filter (fun a => decide (a.Key = "href" ∧ a.Val ≠ "")) :=
      List.mem_of_mem_getLast? hlast
    have hval : x.Val ≠ "" := by
      have := (List.mem_filter.mp hx).2
      exact (of_decide_eq_true this).2
    by_cases hex : ∃ a ∈ attr, a.Key = "rel" ∧ a.Val = "stylesheet"
    · have hb := hany.mpr hex
      rw [if_pos hex]
      simp only [Option.map_some', Option.getD_some, Option.toList]
      rw [if_pos ⟨hb, hval⟩]
    · have hb : ¬ (attr.any (fun a => decide (a.Key = "rel" ∧ a.Val = "stylesheet")) = true) :=
        fun h => hex (hany.mp h)
      rw [if_neg hex]
      simp only [Option.map_some', Option.getD_some, Option.toList, List.append_nil]
      rw [if_neg (fun h => hb h.1)]

mutual
theorem collectStylesheets_traverse_eq : ∀ (n : Node) (stylesheets : List String),
    collectStylesheets.traverse n stylesheets =
      stylesheets ++ (preorder n).filterMap stylesheetRef
  | .mk t a d ns attr cs, stylesheets => by
    rw [collectStylesheets.traverse, preorder, List.filterMap_cons]
    rw [collectStylesheets_children_eq cs]
    by_cases h : t = NodeType.ElementNode ∧ d = "link"
    · rw [if_pos h, collectStylesheets_node_eq]
      simp only [stylesheetRef, Node.Typ, Node.Data, Node.Attr, h, true_and]
      by_cases hex : ∃ a ∈ attr, a.Key = "rel" ∧ a.Val = "stylesheet"
      · simp only [if_pos hex]
        cases (List.filter (fun a => decide (a.Key = "href" ∧ a.Val ≠ "")) attr).getLast? <;>
          simp
      · simp only [if_neg hex]
        simp
    · rw [if_neg h]
      have h' : ¬ (t = NodeType.ElementNode ∧ d = "link" ∧
          ∃ a ∈ attr, a.Key = "rel" ∧ a.Val = "stylesheet") := fun hh => h ⟨hh.1, hh.2.1⟩
      simp only [stylesheetRef, Node.Typ, Node.Data, Node.Attr, h', if_false]
theorem collectStylesheets_children_eq : ∀ (cs : List Node) (stylesheets : List String),
    collectStylesheets.children cs stylesheets =
      stylesheets ++ (preorderList cs).filterMap stylesheetRef
  | [], stylesheets => by simp [collectStylesheets.children, preorderList]
  | c :: rest, stylesheets => by
    rw [collectStylesheets.children, collectStylesheets_traverse_eq c,
      collectStylesheets_children_eq rest, preorderList, List.filterMap_append,
      List.append_assoc]
end

theorem collectStylesheets_eq (head : Node) :
    collectStylesheets head = (preorder head).filterMap stylesheetRef := by
  rw [collectStylesheets, collectStylesheets_traverse_eq, List.nil_append]

/-! ## Lemmas on `findNodes` -/

theorem elementsNamed_mk (name : String) (t : NodeType) (a : Nat) (d ns : String)
    (attr : List Attribute) (cs : List Node) :
    elementsNamed name (Node.mk t a d ns attr cs) =
      (if t = NodeType.ElementNode ∧ d = name then [[]] else []) ++
        elementsNamedList name cs 0 := by
  rw [elementsNamed, preorderAt, List.filter_cons, elementsNamedList]
  by_cases h : t = NodeType.ElementNode ∧ d = name
  · have hb : (Node.mk t a d ns attr cs).isElementNamed name = true := by
      simp only [Node.isElementNamed, Node.Typ, Node.Data]
      exact decide_eq_true h
    rw [hb, if_pos h]
    simp
  · have hb : (Node.mk t a d ns attr cs).isElementNamed name = false := by
      simp only [Node.isElementNamed, Node.Typ, Node.Data]
      exact decide_eq_false h
    rw [hb, if_neg h]
    simp

theorem elementsNamedList_nil (name : String) (i : Nat) :
    elementsNamedList name [] i = [] := by
  simp [elementsNamedList, preorderAtList]

theorem elementsNamedList_cons (name : String) (c : Node) (rest : List Node) (i : Nat) :
    elementsNamedList name (c :: rest) i =
      (elementsNamed name c).map (fun p => i :: p) ++ elementsNamedList name rest (i + 1) := by
  simp only [elementsNamedList, elementsNamed, preorderAtList, List.filter_append,
    List.map_append, List.filter_map, List.map_map]
  rfl

theorem option_or_assoc {α : Type} (a b c : Option α) : (a.or b).or c = a.or (b.or c) := by
  cases a <;> simp [Option.or]

mutual
theorem findNodes_go_eq : ∀ (n : Node) (ptr : Path) (st : Found),
    findNodes.go n ptr st =
      ((((elementsNamed "head" n).map (fun p => ptr ++ p)).getLast?).or st.1,
       (((elementsNamed "body" n).map (fun p => ptr ++ p)).getLast?).or st.2)
  | .mk t a d ns attr cs, ptr, (head, body) => by
    rw [findNodes.go, findNodes_children_eq cs, elementsNamed_mk, elementsNamed_mk]
    simp only [List.map_append, List.getLast?_append, option_or_assoc]
    by_cases ht : t = NodeType.ElementNode
    · by_cases hh : d = "head"
      · have hb : ¬ (d = "body") := by rw [hh]; decide
        simp [ht, hh]
      · by_cases hb : d = "body"
        · simp [ht, hh, hb]
        · simp [ht, hh, hb]
    · simp [ht]
theorem findNodes_children_eq : ∀ (cs : List Node) (ptr : Path) (i : Nat) (st : Found),
    findNodes.children cs ptr i st =
      ((((elementsNamedList "head" cs i).map (fun p => ptr ++ p)).getLast?).or st.1,
       (((elementsNamedList "body" cs i).map (fun p => ptr ++ p)).getLast?).or st.2)
  | [], ptr, i, st => by
    simp [findNodes.children, elementsNamedList_nil, Option.or]
  | c :: rest, ptr, i, st => by
    rw [findNodes.children, findNodes_children_eq rest, findNodes_go_eq c,
      elementsNamedList_cons, elementsNamedList_cons]
    simp only [List.map_append, List.getLast?_append, option_or_assoc, List.map_map]
    have e : ∀ l : List Path, List.map ((fun p => ptr ++ p) ∘ fun p => i :: p) l =
        List.map (fun p => (ptr ++ [i]) ++ p) l := by
      intro l
      apply List.map_congr_left
      intro p _
      simp
    rw [e, e]
end

theorem findNodes_eq (doc : Node) :
    findNodes doc =
      ((elementsNamed "head" doc).getLast?, (elementsNamed "body" doc).getLast?) := by
  rw [findNodes, findNodes_go_eq]
  have e : ∀ l : List Path, List.map (fun p => ([] : Path) ++ p) l = l := by
    intro l
    simp
  rw [e, e]
  cases (elementsNamed "head" doc).getLast? <;>
    cases (elementsNamed "body" doc).getLast? <;> rfl

mutual
theorem get?_of_mem_preorderAt : ∀ (n : Node) (p : Path) (x : Node),
    (p, x) ∈ preorderAt n → n.get? p = some x
  | .mk t a d ns attr cs, p, x, h => by
    rw [preorderAt, List.mem_cons] at h
    rcases h with h | h
    · cases h
      rfl
    · obtain ⟨j, q, c, hp, hc, hq⟩ := get?_of_mem_preorderAtList cs 0 p x h
      subst hp
      rw [Node.get?]
      simp only [Nat.zero_add]
      rw [hc]
      exact hq
theorem get?_of_mem_preorderAtList : ∀ (cs : List Node) (i : Nat) (p : Path) (x : Node),
    (p, x) ∈ preorderAtList cs i →
      ∃ j q c, p = (i + j) :: q ∧ cs[j]? = some c ∧ c.get? q = some x
  | [], i, p, x, h => by
    simp [preorderAtList] at h
  | c :: rest, i, p, x, h => by
    rw [preorderAtList, List.mem_append] at h
    rcases h with h | h
    · rw [List.mem_map] at h
      obtain ⟨⟨q, y⟩, hmem, heq⟩ := h
      simp only [Prod.mk.injEq] at heq
      obtain ⟨h1, h2⟩ := heq
      subst h1 h2
      exact ⟨0, q, c, rfl, by simp, get?_of_mem_preorderAt c q y hmem⟩
    · obtain ⟨j, q, k, hp, hk, hq⟩ := get?_of_mem_preorderAtList rest (i + 1) p x h
      refine ⟨j + 1, q, k, ?_, ?_, hq⟩
      · rw [hp]
        congr 1
        omega
      · simpa using hk
end

theorem get?_of_mem_elementsNamed (name : String) (doc : Node) (p : Path)
    (h : p ∈ elementsNamed name doc) :
    ∃ n, doc.get? p = some n ∧ n.isElementNamed name = true := by
  rw [elementsNamed, List.mem_map] at h
  obtain ⟨⟨q, n⟩, hmem, heq⟩ := h
  rw [List.mem_filter] at hmem
  simp only at heq
  subst heq
  exact ⟨n, get?_of_mem_preorderAt doc q n hmem.1, hmem.2⟩

/-- The pointers that `findNodes` returns denote nodes of the document: an
element named head and an element named body. -/
theorem findNodes_valid (doc : Node) (hp bp : Path)
    (hfind : findNodes doc = (some hp, some bp)) :
    ∃ h b, doc.get? hp = some h ∧ h.isElementNamed "head" = true ∧
      doc.get? bp = some b ∧ b.isElementNamed "body" = true := by
  rw [findNodes_eq] at hfind
  simp only [Prod.mk.injEq] at hfind
  obtain ⟨h1, h2⟩ := hfind
  obtain ⟨h, hh, hh'⟩ := get?_of_mem_elementsNamed "head" doc hp (List.mem_of_mem_getLast? h1)
  obtain ⟨b, hb, hb'⟩ := get?_of_mem_elementsNamed "body" doc bp (List.mem_of_mem_getLast? h2)
  exact ⟨h, b, hh, hh', hb, hb'⟩

theorem findNodes_ne (doc : Node) (hp bp : Path)
    (hfind : findNodes doc = (some hp, some bp)) : hp ≠ bp := by
  obtain ⟨h, b, hh, hh', hb, hb'⟩ := findNodes_valid doc hp bp hfind
  intro e
  subst e
  rw [hh] at hb
  cases hb
  simp only [Node.isElementNamed, decide_eq_true_eq] at hh' hb'
  have : ("head" : String) = "body" := hh'.2.symm.trans hb'.2
  exact absurd this (by decide)

/-! ## Lemmas on appending through a pointer -/

theorem Node.appendChildAt_fields (n : Node) (r : Path) (c : Node) :
    (n.appendChildAt r c).Typ = n.Typ ∧ (n.appendChildAt r c).DataAtom = n.DataAtom ∧
      (n.appendChildAt r c).Data = n.Data ∧ (n.appendChildAt r c).Namespace = n.Namespace ∧
      (n.appendChildAt r c).Attr = n.Attr := by
  cases n with
  | mk t a d ns attr cs =>
    cases r with
    | nil => simp [Node.appendChildAt, Node.AppendChild, Node.Typ, Node.DataAtom, Node.Data,
        Node.Namespace, Node.Attr]
    | cons i r =>
      rw [Node.appendChildAt]
      cases cs[i]? <;>
        simp [Node.Typ, Node.DataAtom, Node.Data, Node.Namespace, Node.Attr]

theorem Node.appendChildAt_nil_children (n : Node) (c : Node) :
    (n.appendChildAt [] c).children = n.children ++ [c] := by
  cases n with
  | mk t a d ns attr cs => simp [Node.appendChildAt, Node.AppendChild, Node.children]

theorem Node.appendChildAt_cons_children (n : Node) (i : Nat) (r : Path) (c : Node) :
    ∃ x, (n.appendChildAt (i :: r) c).children = n.children.set i x := by
  cases n with
  | mk t a d ns attr cs =>
    rw [Node.appendChildAt]
    cases h : cs[i]? with
    | none =>
      refine ⟨c, ?_⟩
      simp only [Node.children]
      rw [List.getElem?_eq_none_iff] at h
      exact (List.set_eq_of_length_le h).symm
    | some k =>
      exact ⟨_, rfl⟩

theorem Node.get?_appendChildAt (doc : Node) (p : Path) (c : Node) :
    ∀ (q : Path) (n : Node), doc.get? q = some n →
      (doc.appendChildAt p c).get? q =
        some (match Path.relativeTo q p with
          | some r => n.appendChildAt r c
          | none => n) := by
  intro q
  induction q generalizing doc p with
  | nil =>
    intro n h
    rw [Node.get?] at h
    cases h
    simp [Node.get?, Path.relativeTo]
  | cons i q ih =>
    intro n h
    cases doc with
    | mk t a d ns attr cs =>
      rw [Node.get?] at h
      cases hk : cs[i]? with
      | none => rw [hk] at h; cases h
      | some k =>
        rw [hk] at h
        simp only at h
        have hi : i < cs.length := by
          by_contra hcon
          rw [List.getElem?_eq_none_iff.mpr (by omega)] at hk
          cases hk
        cases p with
        | nil =>
          simp only [Node.appendChildAt, Node.AppendChild, Path.relativeTo]
          rw [Node.get?, List.getElem?_append_left hi, hk]
          exact h
        | cons j p =>
          rw [Node.appendChildAt]
          by_cases hij : i = j
          · subst hij
            rw [hk]
            simp only [Path.relativeTo, if_true]
            rw [Node.get?, List.getElem?_set_self hi]
            exact ih k p n h
          · simp only [Path.relativeTo, if_neg hij]
            cases hj : cs[j]? with
            | none =>
              simp only
              rw [Node.get?, hk]
              exact h
            | some k' =>
              simp only
              rw [Node.get?, List.getElem?_set_ne (Ne.symm hij), hk]
              exact h

theorem preorderAtList_append (xs ys : List Node) (i : Nat) :
    preorderAtList (xs ++ ys) i = preorderAtList xs i ++ preorderAtList ys (i + xs.length) := by
  induction xs generalizing i with
  | nil => simp [preorderAtList]
  | cons x xs ih =>
    rw [List.cons_append, preorderAtList, preorderAtList, ih, List.append_assoc]
    congr 3
    simp only [List.length_cons]
    omega

theorem filterMap_eq_nil_of_forall {α β : Type} (f : α → Option β) (l : List α)
    (h : ∀ x ∈ l, f x = none) : l.filterMap f = [] := by
  induction l with
  | nil => rfl
  | cons x l ih =>
    rw [List.filterMap_cons, h x (List.mem_cons_self x l)]
    exact ih (fun y hy => h y (List.mem_cons_of_mem x hy))

theorem filterMap_preorderAtList_set {β : Type} (c : Node) (k k' : Node)
    (hk : ∀ f : Path × Node → Option β,
      (∀ p t a d ns attr cs cs', f (p, Node.mk t a d ns attr cs) =
        f (p, Node.mk t a d ns attr cs')) →
      (∀ q x, (q, x) ∈ preorderAt c → ∀ p, f (p, x) = none) →
      (preorderAt k').filterMap f = (preorderAt k).filterMap f) :
    ∀ (cs : List Node) (i j : Nat), cs[i]? = some k →
      ∀ f : Path × Node → Option β,
        (∀ p t a d ns attr cs cs', f (p, Node.mk t a d ns attr cs) =
          f (p, Node.mk t a d ns attr cs')) →
        (∀ q x, (q, x) ∈ preorderAt c → ∀ p, f (p, x) = none) →
        (preorderAtList (cs.set i k') j).filterMap f = (preorderAtList cs j).filterMap f := by
  intro cs
  induction cs with
  | nil =>
    intro i j h
    simp at h
  | cons x rest ih =>
    intro i j h f hs hn
    cases i with
    | zero =>
      simp only [List.getElem?_cons_zero, Option.some.injEq] at h
      subst h
      rw [List.set_cons_zero, preorderAtList, preorderAtList, List.filterMap_append,
        List.filterMap_append, List.filterMap_map, List.filterMap_map]
      congr 1
      exact hk _ (fun p t a d ns attr cs cs' => hs _ t a d ns attr cs cs')
        (fun q y hy p => hn q y hy _)
    | succ i =>
      simp only [List.getElem?_cons_succ] at h
      rw [List.set_cons_succ, preorderAtList, preorderAtList, List.filterMap_append,
        List.filterMap_append, ih i (j + 1) h f hs hn]

theorem filterMap_preorderAt_appendChildAt {β : Type} (c : Node) :
    ∀ (r : Path) (n : Node) (f : Path × Node → Option β),
      (∀ p t a d ns attr cs cs', f (p, Node.mk t a d ns attr cs) =
        f (p, Node.mk t a d ns attr cs')) →
      (∀ q x, (q, x) ∈ preorderAt c → ∀ p, f (p, x) = none) →
      (preorderAt (n.appendChildAt r c)).filterMap f = (preorderAt n).filterMap f := by
  intro r
  induction r with
  | nil =>
    intro n f hs hn
    cases n with
    | mk t a d ns attr cs =>
      simp only [Node.appendChildAt, Node.AppendChild]
      rw [preorderAt, preorderAt, List.filterMap_cons, List.filterMap_cons,
        hs [] t a d ns attr (cs ++ [c]) cs, preorderAtList_append, List.filterMap_append]
      have e : (preorderAtList [c] (0 + cs.length)).filterMap f = [] := by
        apply filterMap_eq_nil_of_forall
        intro y hy
        simp only [preorderAtList, List.append_nil, List.mem_map] at hy
        obtain ⟨⟨q, x⟩, hmem, rfl⟩ := hy
        exact hn q x hmem _
      rw [e, List.append_nil]
  | cons i r ih =>
    intro n f hs hn
    cases n with
    | mk t a d ns attr cs =>
      rw [Node.appendChildAt]
      cases hk : cs[i]? with
      | none => rfl
      | some k =>
        simp only
        rw [preorderAt, preorderAt, List.filterMap_cons, List.filterMap_cons,
          hs [] t a d ns attr (cs.set i (k.appendChildAt r c)) cs,
          filterMap_preorderAtList_set c k (k.appendChildAt r c) (fun g hg hg' => ih k g hg hg')
            cs i 0 hk f hs hn]

mutual
theorem preorder_eq_map : ∀ n : Node, preorder n = (preorderAt n).map Prod.snd
  | .mk t a d ns attr cs => by
    rw [preorder, preorderAt, List.map_cons, preorderList_eq_map cs 0]
theorem preorderList_eq_map : ∀ (cs : List Node) (i : Nat),
    preorderList cs = (preorderAtList cs i).map Prod.snd
  | [], i => by simp [preorderList, preorderAtList]
  | c :: rest, i => by
    rw [preorderList, preorderAtList, List.map_append, List.map_map, preorder_eq_map c,
      preorderList_eq_map rest (i + 1)]
    rfl
end

theorem preorderAt_inlinedElement (tag content : String) :
    preorderAt (inlinedElement tag content) =
      [([], inlinedElement tag content),
       ([0], Node.mk NodeType.TextNode 0 content "" [] [])] := by
  simp [inlinedElement, preorderAt, preorderAtList]

theorem scriptRef_shallow (t : NodeType) (a : Nat) (d ns : String) (attr : List Attribute)
    (cs cs' : List Node) :
    scriptRef (Node.mk t a d ns attr cs) = scriptRef (Node.mk t a d ns attr cs') := rfl

theorem stylesheetRef_shallow (t : NodeType) (a : Nat) (d ns : String) (attr : List Attribute)
    (cs cs' : List Node) :
    stylesheetRef (Node.mk t a d ns attr cs) = stylesheetRef (Node.mk t a d ns attr cs') := rfl

theorem scriptRef_inlined (tag content : String) (q : Path) (x : Node)
    (h : (q, x) ∈ preorderAt (inlinedElement tag content)) : scriptRef x = none := by
  rw [preorderAt_inlinedElement] at h
  simp only [List.mem_cons, Prod.mk.injEq, List.mem_singleton, List.not_mem_nil, or_false] at h
  rcases h with ⟨_, rfl⟩ | ⟨_, rfl⟩
  · simp [scriptRef, inlinedElement, Node.Attr]
  · simp [scriptRef, Node.Typ]

theorem stylesheetRef_inlined (tag content : String) (q : Path) (x : Node)
    (h : (q, x) ∈ preorderAt (inlinedElement tag content)) : stylesheetRef x = none := by
  rw [preorderAt_inlinedElement] at h
  simp only [List.mem_cons, Prod.mk.injEq, List.mem_singleton, List.not_mem_nil, or_false] at h
  rcases h with ⟨_, rfl⟩ | ⟨_, rfl⟩
  · simp [stylesheetRef, inlinedElement, Node.Attr]
  · simp [stylesheetRef, Node.Typ]

theorem collectScripts_appendChildAt (n : Node) (r : Path) (tag content : String) :
    collectScripts (n.appendChildAt r (inlinedElement tag content)) = collectScripts n := by
  rw [collectScripts_eq, collectScripts_eq, preorder_eq_map, preorder_eq_map,
    List.filterMap_map, List.filterMap_map]
  apply filterMap_preorderAt_appendChildAt
  · intro p t a d ns attr cs cs'
    rfl
  · intro q x hx p
    exact scriptRef_inlined tag content q x hx

theorem collectStylesheets_appendChildAt (n : Node) (r : Path) (tag content : String) :
    collectStylesheets (n.appendChildAt r (inlinedElement tag content)) =
      collectStylesheets n := by
  rw [collectStylesheets_eq, collectStylesheets_eq, preorder_eq_map, preorder_eq_map,
    List.filterMap_map, List.filterMap_map]
  apply filterMap_preorderAt_appendChildAt
  · intro p t a d ns attr cs cs'
    rfl
  · intro q x hx p
    exact stylesheetRef_inlined tag content q x hx

theorem Node.appendChildrenAt_nil (doc : Node) (p : Path) :
    doc.appendChildrenAt p [] = doc := rfl

theorem Node.appendChildrenAt_cons (doc : Node) (p : Path) (c : Node) (cs : List Node) :
    doc.appendChildrenAt p (c :: cs) = (doc.appendChildAt p c).appendChildrenAt p cs := rfl

theorem mem_inlinedFor (tag : String) (w : World) (refs : List String) (c : Node)
    (h : c ∈ inlinedFor tag w refs) : ∃ content, c = inlinedElement tag content := by
  rw [inlinedFor, List.mem_filterMap] at h
  obtain ⟨ref, _, hc⟩ := h
  cases hf : w.files (assetPath ref) with
  | error e => rw [hf] at hc; cases hc
  | ok content =>
    rw [hf] at hc
    simp only [Option.some.injEq] at hc
    exact ⟨content, hc.symm⟩

theorem Node.appendChildrenAt_fields (n : Node) (r : Path) (cs : List Node) :
    (n.appendChildrenAt r cs).Typ = n.Typ ∧ (n.appendChildrenAt r cs).DataAtom = n.DataAtom ∧
      (n.appendChildrenAt r cs).Data = n.Data ∧
      (n.appendChildrenAt r cs).Namespace = n.Namespace ∧
      (n.appendChildrenAt r cs).Attr = n.Attr := by
  induction cs generalizing n with
  | nil => exact ⟨rfl, rfl, rfl, rfl, rfl⟩
  | cons c cs ih =>
    rw [Node.appendChildrenAt_cons]
    obtain ⟨h1, h2, h3, h4, h5⟩ := ih (n.appendChildAt r c)
    obtain ⟨g1, g2, g3, g4, g5⟩ := Node.appendChildAt_fields n r c
    exact ⟨h1.trans g1, h2.trans g2, h3.trans g3, h4.trans g4, h5.trans g5⟩

theorem Node.appendChildrenAt_nil_children (n : Node) (cs : List Node) :
    (n.appendChildrenAt [] cs).children = n.children ++ cs := by
  induction cs generalizing n with
  | nil => simp [Node.appendChildrenAt_nil]
  | cons c cs ih =>
    rw [Node.appendChildrenAt_cons, ih, Node.appendChildAt_nil_children, List.append_assoc]
    rfl

theorem Node.appendChildrenAt_cons_children (n : Node) (i : Nat) (r : Path) (cs : List Node) :
    (n.appendChildrenAt (i :: r) cs).children.length = n.children.length ∧
      ∀ k, i < k → (n.appendChildrenAt (i :: r) cs).children.drop k = n.children.drop k := by
  induction cs generalizing n with
  | nil => exact ⟨rfl, fun _ _ => rfl⟩
  | cons c cs ih =>
    rw [Node.appendChildrenAt_cons]
    obtain ⟨h1, h2⟩ := ih (n.appendChildAt (i :: r) c)
    obtain ⟨x, hx⟩ := Node.appendChildAt_cons_children n i r c
    refine ⟨?_, ?_⟩
    · rw [h1, hx, List.length_set]
    · intro k hk
      rw [h2 k hk, hx, List.drop_set, if_pos hk]

theorem Node.get?_appendChildrenAt (p : Path) (cs : List Node) :
    ∀ (doc : Node) (q : Path) (n : Node), doc.get? q = some n →
      (doc.appendChildrenAt p cs).get? q =
        some (match Path.relativeTo q p with
          | some r => n.appendChildrenAt r cs
          | none => n) := by
  induction cs with
  | nil =>
    intro doc q n h
    rw [Node.appendChildrenAt_nil, h]
    cases Path.relativeTo q p <;> rfl
  | cons c cs ih =>
    intro doc q n h
    rw [Node.appendChildrenAt_cons, ih _ q _ (Node.get?_appendChildAt doc p c q n h)]
    cases Path.relativeTo q p <;> rfl

theorem collectScripts_appendChildrenAt (tag : String) (w : World) (refs : List String)
    (n : Node) (r : Path) :
    collectScripts (n.appendChildrenAt r (inlinedFor tag w refs)) = collectScripts n := by
  have key : ∀ (cs : List Node), (∀ c ∈ cs, ∃ content, c = inlinedElement tag content) →
      ∀ n : Node, collectScripts (n.appendChildrenAt r cs) = collectScripts n := by
    intro cs
    induction cs with
    | nil => intro _ n; rfl
    | cons c cs ih =>
      intro hcs n
      obtain ⟨content, rfl⟩ := hcs c (List.mem_cons_self c cs)
      rw [Node.appendChildrenAt_cons, ih (fun x hx => hcs x (List.mem_cons_of_mem _ hx)),
        collectScripts_appendChildAt]
  exact key _ (fun c hc => mem_inlinedFor tag w refs c hc) n

theorem collectStylesheets_appendChildrenAt (tag : String) (w : World) (refs : List String)
    (n : Node) (r : Path) :
    collectStylesheets (n.appendChildrenAt r (inlinedFor tag w refs)) =
      collectStylesheets n := by
  have key : ∀ (cs : List Node), (∀ c ∈ cs, ∃ content, c = inlinedElement tag content) →
      ∀ n : Node, collectStylesheets (n.appendChildrenAt r cs) = collectStylesheets n := by
    intro cs
    induction cs with
    | nil => intro _ n; rfl
    | cons c cs ih =>
      intro hcs n
      obtain ⟨content, rfl⟩ := hcs c (List.mem_cons_self c cs)
      rw [Node.appendChildrenAt_cons, ih (fun x hx => hcs x (List.mem_cons_of_mem _ hx)),
        collectStylesheets_appendChildAt]
  exact key _ (fun c hc => mem_inlinedFor tag w refs c hc) n

theorem Path.relativeTo_self (q : Path) : Path.relativeTo q q = some [] := by
  induction q with
  | nil => rfl
  | cons i q ih => simp [Path.relativeTo, ih]

theorem Path.eq_append_of_relativeTo (q p r : Path) (h : Path.relativeTo q p = some r) :
    p = q ++ r := by
  induction q generalizing p with
  | nil =>
    simp only [Path.relativeTo, Option.some.injEq] at h
    simp [h]
  | cons i q ih =>
    cases p with
    | nil => simp [Path.relativeTo] at h
    | cons j p =>
      by_cases hij : i = j
      · subst hij
        simp only [Path.relativeTo, if_true] at h
        rw [ih p h]
        rfl
      · simp [Path.relativeTo, hij] at h

theorem Node.get?_append (doc : Node) (q r : Path) :
    doc.get? (q ++ r) = (doc.get? q).bind (fun n => n.get? r) := by
  induction q generalizing doc with
  | nil => simp [Node.get?]
  | cons i q ih =>
    cases doc with
    | mk t a d ns attr cs =>
      rw [List.cons_append, Node.get?, Node.get?]
      cases cs[i]? with
      | none => rfl
      | some k => exact ih k

theorem Node.lt_length_of_get?_cons (b x : Node) (i : Nat) (r : Path)
    (h : b.get? (i :: r) = some x) : i < b.children.length := by
  cases b with
  | mk t a d ns attr cs =>
    rw [Node.get?] at h
    by_contra hcon
    rw [List.getElem?_eq_none_iff.mpr (by simpa [Node.children] using hcon)] at h
    cases h

/-! ## Lemmas on the inlining steps -/

theorem inlinedFor_congr (tag : String) (w w' : World) (refs : List String)
    (h : w'.files = w.files) : inlinedFor tag w' refs = inlinedFor tag w refs := by
  simp only [inlinedFor, h]

theorem embedScript_eq (doc : Node) (body : Path) (src : String) (w : World) :
    embedScript doc body src w =
      (match w.files (assetPath src) with
        | .ok _ => none
        | .error err => some ("无法读取脚本文件: " ++ err),
       doc.appendChildrenAt body (inlinedFor "script" w [src]),
       { files := w.files, reads := w.reads ++ [assetPath src] }) := by
  simp only [embedScript, ReadFile, assetPath, inlinedFor, List.filterMap_cons,
    List.filterMap_nil]
  cases w.files (filepath.Join [distRoot, filepath.Clean src]) <;> rfl

theorem embedStylesheet_eq (doc : Node) (head : Path) (href : String) (w : World) :
    embedStylesheet doc head href w =
      (match w.files (assetPath href) with
        | .ok _ => none
        | .error err => some ("无法读取CSS文件: " ++ err),
       doc.appendChildrenAt head (inlinedFor "style" w [href]),
       { files := w.files, reads := w.reads ++ [assetPath href] }) := by
  simp only [embedStylesheet, ReadFile, assetPath, inlinedFor, List.filterMap_cons,
    List.filterMap_nil]
  cases w.files (filepath.Join [distRoot, filepath.Clean href]) <;> rfl

theorem Node.appendChildrenAt_append (doc : Node) (p : Path) (xs ys : List Node) :
    doc.appendChildrenAt p (xs ++ ys) = (doc.appendChildrenAt p xs).appendChildrenAt p ys := by
  simp [Node.appendChildrenAt, List.foldl_append]

theorem inlinedFor_cons (tag : String) (w : World) (ref : String) (refs : List String) :
    inlinedFor tag w (ref :: refs) = inlinedFor tag w [ref] ++ inlinedFor tag w refs := by
  simp only [inlinedFor, List.filterMap_cons, List.filterMap_nil]
  cases w.files (assetPath ref) <;> rfl

theorem embedScripts_eq (body : Path) : ∀ (refs : List String) (doc : Node) (w : World),
    embedScripts body refs (doc, w) =
      (doc.appendChildrenAt body (inlinedFor "script" w refs),
       { files := w.files, reads := w.reads ++ refs.map assetPath }) := by
  intro refs
  induction refs with
  | nil =>
    intro doc w
    simp [embedScripts, inlinedFor, Node.appendChildrenAt_nil]
  | cons src rest ih =>
    intro doc w
    rw [embedScripts, embedScript_eq]
    simp only
    rw [ih, inlinedFor_cons "script" w src rest, Node.appendChildrenAt_append,
      inlinedFor_congr "script" w { files := w.files, reads := w.reads ++ [assetPath src] } rest
        rfl]
    simp

theorem embedStylesheets_eq (head : Path) : ∀ (refs : List String) (doc : Node) (w : World),
    embedStylesheets head refs (doc, w) =
      (doc.appendChildrenAt head (inlinedFor "style" w refs),
       { files := w.files, reads := w.reads ++ refs.map assetPath }) := by
  intro refs
  induction refs with
  | nil =>
    intro doc w
    simp [embedStylesheets, inlinedFor, Node.appendChildrenAt_nil]
  | cons href rest ih =>
    intro doc w
    rw [embedStylesheets, embedStylesheet_eq]
    simp only
    rw [ih, inlinedFor_cons "style" w href rest, Node.appendChildrenAt_append,
      inlinedFor_congr "style" w { files := w.files, reads := w.reads ++ [assetPath href] } rest
        rfl]
    simp

theorem Node.deref_eq (doc : Node) (p : Path) (n : Node) (h : doc.get? p = some n) :
    doc.deref p = n := by
  simp [Node.deref, h]

theorem Node.under_fields (n : Node) (o : Option Path) (cs : List Node) :
    (match o with
      | some r => n.appendChildrenAt r cs
      | none => n).Typ = n.Typ ∧
    (match o with
      | some r => n.appendChildrenAt r cs
      | none => n).DataAtom = n.DataAtom ∧
    (match o with
      | some r => n.appendChildrenAt r cs
      | none => n).Data = n.Data ∧
    (match o with
      | some r => n.appendChildrenAt r cs
      | none => n).Namespace = n.Namespace ∧
    (match o with
      | some r => n.appendChildrenAt r cs
      | none => n).Attr = n.Attr := by
  cases o with
  | none => exact ⟨rfl, rfl, rfl, rfl, rfl⟩
  | some r => exact Node.appendChildrenAt_fields n r cs

theorem Node.under_length (n : Node) (o : Option Path) (cs : List Node) :
    n.children.length ≤
        (match o with
          | some r => n.appendChildrenAt r cs
          | none => n).children.length ∧
      (o ≠ some [] →
        (match o with
          | some r => n.appendChildrenAt r cs
          | none => n).children.length = n.children.length) := by
  cases o with
  | none => exact ⟨le_refl _, fun _ => rfl⟩
  | some r =>
    cases r with
    | nil =>
      refine ⟨?_, fun h => absurd rfl h⟩
      simp only [Node.appendChildrenAt_nil_children, List.length_append]
      omega
    | cons i r =>
      have := (Node.appendChildrenAt_cons_children n i r cs).1
      exact ⟨by simp only; omega, fun _ => this⟩

theorem Path.relativeTo_ne_nil (q p : Path) (hne : q ≠ p) : Path.relativeTo q p ≠ some [] := by
  intro h
  have := Path.eq_append_of_relativeTo q p [] h
  simp only [List.append_nil] at this
  exact hne this.symm

theorem inlineAssets_eq (doc : Node) (hp bp : Path) (w : World) (h : Node)
    (hh : doc.get? hp = some h) :
    inlineAssets doc hp bp w =
      ((doc.appendChildrenAt bp (inlinedFor "script" w (collectScripts h))).appendChildrenAt hp
          (inlinedFor "style" w (collectStylesheets h)),
       { files := w.files,
         reads := w.reads ++ (collectScripts h).map assetPath ++
           (collectStylesheets h).map assetPath }) := by
  have h1 := Node.get?_appendChildrenAt bp (inlinedFor "script" w (collectScripts h)) doc hp h hh
  have hc : collectStylesheets ((doc.appendChildrenAt bp
      (inlinedFor "script" w (collectScripts h))).deref hp) = collectStylesheets h := by
    rw [Node.deref_eq _ _ _ h1]
    cases Path.relativeTo hp bp with
    | none => rfl
    | some r => exact collectStylesheets_appendChildrenAt "script" w _ h r
  rw [inlineAssets, Node.deref_eq doc hp h hh, embedScripts_eq]
  simp only
  rw [hc, embedStylesheets_eq,
    inlinedFor_congr "style" w
      { files := w.files, reads := w.reads ++ (collectScripts h).map assetPath } _ rfl]

theorem inlined_frame (doc : Node) (hp bp : Path) (S T : List Node) (q : Path) (n : Node)
    (hq : doc.get? q = some n) :
    ∃ n', ((doc.appendChildrenAt bp S).appendChildrenAt hp T).get? q = some n' ∧
      n'.Typ = n.Typ ∧ n'.DataAtom = n.DataAtom ∧ n'.Data = n.Data ∧
      n'.Namespace = n.Namespace ∧ n'.Attr = n.Attr ∧
      n.children.length ≤ n'.children.length ∧
      (q ≠ hp → q ≠ bp → n'.children.length = n.children.length) := by
  have h1 := Node.get?_appendChildrenAt bp S doc q n hq
  have h2 := Node.get?_appendChildrenAt hp T _ q _ h1
  refine ⟨_, h2, ?_⟩
  obtain ⟨a1, a2, a3, a4, a5⟩ := Node.under_fields n (Path.relativeTo q bp) S
  obtain ⟨b1, b2, b3, b4, b5⟩ := Node.under_fields
    (match Path.relativeTo q bp with
      | some r => n.appendChildrenAt r S
      | none => n) (Path.relativeTo q hp) T
  obtain ⟨l1, e1⟩ := Node.under_length n (Path.relativeTo q bp) S
  obtain ⟨l2, e2⟩ := Node.under_length
    (match Path.relativeTo q bp with
      | some r => n.appendChildrenAt r S
      | none => n) (Path.relativeTo q hp) T
  refine ⟨b1.trans a1, b2.trans a2, b3.trans a3, b4.trans a4, b5.trans a5,
    le_trans l1 l2, ?_⟩
  intro hqh hqb
  rw [e2 (Path.relativeTo_ne_nil q hp hqh), e1 (Path.relativeTo_ne_nil q bp hqb)]

theorem inlined_head (doc : Node) (hp bp : Path) (w : World) (refs : List String)
    (T : List Node) (h : Node) (hh : doc.get? hp = some h) (hne : hp ≠ bp) :
    ∃ h', ((doc.appendChildrenAt bp (inlinedFor "script" w refs)).appendChildrenAt hp T).get? hp
        = some (h'.appendChildrenAt [] T) ∧
      h'.children.length = h.children.length ∧
      collectScripts h' = collectScripts h ∧ collectStylesheets h' = collectStylesheets h := by
  have h1 := Node.get?_appendChildrenAt bp (inlinedFor "script" w refs) doc hp h hh
  have h2 := Node.get?_appendChildrenAt hp T _ hp _ h1
  rw [Path.relativeTo_self] at h2
  refine ⟨_, h2, ?_, ?_, ?_⟩
  · exact (Node.under_length h (Path.relativeTo hp bp) _).2 (Path.relativeTo_ne_nil hp bp hne)
  · cases Path.relativeTo hp bp with
    | none => rfl
    | some r => exact collectScripts_appendChildrenAt "script" w refs h r
  · cases Path.relativeTo hp bp with
    | none => rfl
    | some r => exact collectStylesheets_appendChildrenAt "script" w refs h r

theorem inlined_body (doc : Node) (hp bp : Path) (S T : List Node) (h b : Node)
    (hh : doc.get? hp = some h) (hb : doc.get? bp = some b) (hne : hp ≠ bp) :
    ∃ b', ((doc.appendChildrenAt bp S).appendChildrenAt hp T).get? bp = some b' ∧
      b'.children.length = b.children.length + S.length ∧
      b'.children.drop b.children.length = S := by
  have h1 := Node.get?_appendChildrenAt bp S doc bp b hb
  rw [Path.relativeTo_self] at h1
  have h2 := Node.get?_appendChildrenAt hp T _ bp _ h1
  refine ⟨_, h2, ?_⟩
  have hc : (b.appendChildrenAt [] S).children = b.children ++ S :=
    Node.appendChildrenAt_nil_children b S
  cases hrel : Path.relativeTo bp hp with
  | none =>
    simp only
    rw [hc, List.length_append, List.drop_left]
    exact ⟨rfl, rfl⟩
  | some r =>
    cases r with
    | nil => exact absurd hrel (Path.relativeTo_ne_nil bp hp (Ne.symm hne))
    | cons i r =>
      simp only
      have hpath := Path.eq_append_of_relativeTo bp hp (i :: r) hrel
      have hi : i < b.children.length := by
        have := Node.get?_append doc bp (i :: r)
        rw [← hpath, hh, hb] at this
        exact Node.lt_length_of_get?_cons b h i r this.symm
      obtain ⟨e1, e2⟩ := Node.appendChildrenAt_cons_children (b.appendChildrenAt [] S) i r T
      rw [e1, e2 _ hi, hc, List.length_append, List.drop_left]
      exact ⟨rfl, rfl⟩

theorem inlinedFor_of_forall₂ (tag : String) (w : World) (refs contents : List String)
    (h : List.Forall₂ (fun ref content => w.files (assetPath ref) = .ok content) refs contents) :
    inlinedFor tag w refs = contents.map (inlinedElement tag) := by
  induction h with
  | nil => rfl
  | cons hrc _ ih =>
    rw [inlinedFor_cons, ih, List.map_cons]
    simp only [inlinedFor, List.filterMap_cons, List.filterMap_nil, hrc]
    rfl

theorem inlined_head_children (doc : Node) (hp bp : Path) (w : World)
    (refs refs' : List String) (h : Node) (hh : doc.get? hp = some h) (hne : hp ≠ bp) :
    ∃ h', ((doc.appendChildrenAt bp (inlinedFor "script" w refs)).appendChildrenAt hp
        (inlinedFor "style" w refs')).get? hp = some h' ∧
      h'.children.length = h.children.length + (inlinedFor "style" w refs').length ∧
      h'.children.drop h.children.length = inlinedFor "style" w refs' ∧
      collectScripts h' = collectScripts h ∧ collectStylesheets h' = collectStylesheets h := by
  obtain ⟨h0, hget, hlen, hcs, hcss⟩ :=
    inlined_head doc hp bp w refs (inlinedFor "style" w refs') h hh hne
  refine ⟨_, hget, ?_, ?_, ?_, ?_⟩
  · rw [Node.appendChildrenAt_nil_children, List.length_append, hlen]
  · rw [Node.appendChildrenAt_nil_children, ← hlen, List.drop_left]
  · rw [collectScripts_appendChildrenAt, hcs]
  · rw [collectStylesheets_appendChildrenAt, hcss]

/-! ## Lemmas on the reference of a node -/

theorem head?_filter_eq_find? {α : Type} (p : α → Bool) (l : List α) :
    (l.filter p).head? = l.find? p := by
  induction l with
  | nil => rfl
  | cons x l ih =>
    rw [List.filter_cons, List.find?_cons]
    cases h : p x with
    | true => simp
    | false => simp [ih]

theorem getLast?_filter_eq_some {α : Type} (p : α → Bool) (l : List α) (a : α) :
    (l.filter p).getLast? = some a ↔
      ∃ pre post, l = pre ++ a :: post ∧ p a = true ∧ ∀ x ∈ post, ¬ (p x = true) := by
  rw [← List.head?_reverse, ← List.filter_reverse, head?_filter_eq_find?, List.find?_eq_some]
  constructor
  · rintro ⟨hp, as, bs, hl, has⟩
    refine ⟨bs.reverse, as.reverse, ?_, hp, ?_⟩
    · have := congrArg List.reverse hl
      simpa using this
    · intro x hx
      have := has x (List.mem_reverse.mp hx)
      simpa using this
  · rintro ⟨pre, post, hl, hp, hpost⟩
    refine ⟨hp, post.reverse, pre.reverse, ?_, ?_⟩
    · rw [hl]; simp
    · intro x hx
      have := hpost x (List.mem_reverse.mp hx)
      simpa using this

theorem scriptRef_eq_some (n : Node) (v : String) :
    scriptRef n = some v ↔
      n.Typ = NodeType.ElementNode ∧ n.Data = "script" ∧
        ∃ pre a post, n.Attr = pre ++ a :: post ∧ a.Key = "src" ∧ a.Val ≠ "" ∧ a.Val = v ∧
          ∀ x ∈ pre, ¬ (x.Key = "src" ∧ x.Val ≠ "") := by
  rw [scriptRef]
  by_cases h : n.Typ = NodeType.ElementNode ∧ n.Data = "script"
  · rw [if_pos h, Option.map_eq_some']
    constructor
    · rintro ⟨a, ha, hv⟩
      rw [List.find?_eq_some] at ha
      obtain ⟨hp, pre, post, hl, hpre⟩ := ha
      have hp' := of_decide_eq_true hp
      refine ⟨h.1, h.2, pre, a, post, hl, hp'.1, hp'.2, hv, ?_⟩
      intro x hx hcon
      have := hpre x hx
      rw [decide_eq_true hcon] at this
      cases this
    · rintro ⟨_, _, pre, a, post, hl, hk, hne, hv, hpre⟩
      refine ⟨a, ?_, hv⟩
      rw [List.find?_eq_some]
      refine ⟨decide_eq_true ⟨hk, hne⟩, pre, post, hl, ?_⟩
      intro x hx
      rw [decide_eq_false (hpre x hx)]
      rfl
  · rw [if_neg h]
    constructor
    · intro hcon
      cases hcon
    · rintro ⟨h1, h2, _⟩
      exact absurd ⟨h1, h2⟩ h

theorem stylesheetRef_eq_some (n : Node) (v : String) :
    stylesheetRef n = some v ↔
      n.Typ = NodeType.ElementNode ∧ n.Data = "link" ∧
        (∃ a ∈ n.Attr, a.Key = "rel" ∧ a.Val = "stylesheet") ∧
        ∃ pre a post, n.Attr = pre ++ a :: post ∧ a.Key = "href" ∧ a.Val ≠ "" ∧ a.Val = v ∧
          ∀ x ∈ post, ¬ (x.Key = "href" ∧ x.Val ≠ "") := by
  rw [stylesheetRef]
  by_cases h : n.Typ = NodeType.ElementNode ∧ n.Data = "link" ∧
      (∃ a ∈ n.Attr, a.Key = "rel" ∧ a.Val = "stylesheet")
  · rw [if_pos h, Option.map_eq_some']
    constructor
    · rintro ⟨a, ha, hv⟩
      rw [getLast?_filter_eq_some] at ha
      obtain ⟨pre, post, hl, hp, hpost⟩ := ha
      have hp' := of_decide_eq_true hp
      refine ⟨h.1, h.2.1, h.2.2, pre, a, post, hl, hp'.1, hp'.2, hv, ?_⟩
      intro x hx hcon
      exact hpost x hx (decide_eq_true hcon)
    · rintro ⟨_, _, _, pre, a, post, hl, hk, hne, hv, hpost⟩
      refine ⟨a, ?_, hv⟩
      rw [getLast?_filter_eq_some]
      refine ⟨pre, post, hl, decide_eq_true ⟨hk, hne⟩, ?_⟩
      intro x hx hcon
      exact hpost x hx (of_decide_eq_true hcon)
  · rw [if_neg h]
    constructor
    · intro hcon
      cases hcon
    · rintro ⟨h1, h2, h3, _⟩
      exact absurd ⟨h1, h2, h3⟩ h

/-! ## Lemmas on `filepath.Clean` -/

theorem filepath.splitSlash_ne_nil (l : List Char) : filepath.splitSlash l ≠ [] := by
  cases l with
  | nil => simp [filepath.splitSlash]
  | cons c cs =>
    rw [filepath.splitSlash]
    by_cases h : c = '/'
    · simp [h]
    · rw [if_neg h]
      cases filepath.splitSlash cs <;> simp

theorem filepath.splitSlash_no_slash (l : List Char) :
    ∀ x ∈ filepath.splitSlash l, '/' ∉ x := by
  induction l with
  | nil => simp [filepath.splitSlash]
  | cons c cs ih =>
    rw [filepath.splitSlash]
    by_cases h : c = '/'
    · rw [if_pos h]
      intro x hx
      rcases List.mem_cons.mp hx with rfl | hx
      · simp
      · exact ih x hx
    · rw [if_neg h]
      cases hs : filepath.splitSlash cs with
      | nil =>
        intro x hx
        simp only [List.mem_singleton] at hx
        subst hx
        simpa using Ne.symm h
      | cons y ys =>
        rw [hs] at ih
        intro x hx
        rcases List.mem_cons.mp hx with rfl | hx
        · have := ih y (List.mem_cons_self y ys)
          simp only [List.mem_cons, not_or]
          exact ⟨Ne.symm h, this⟩
        · exact ih x (List.mem_cons_of_mem y hx)

theorem filepath.splitSlash_append (xs ys : List Char) :
    filepath.splitSlash (xs ++ '/' :: ys) = filepath.splitSlash xs ++ filepath.splitSlash ys := by
  induction xs with
  | nil => simp [filepath.splitSlash]
  | cons c cs ih =>
    rw [List.cons_append, filepath.splitSlash, filepath.splitSlash, ih]
    by_cases h : c = '/'
    · simp [h]
    · rw [if_neg h, if_neg h]
      cases hs : filepath.splitSlash cs with
      | nil => exact absurd hs (filepath.splitSlash_ne_nil cs)
      | cons y ys' => rfl

theorem filepath.splitSlash_of_no_slash (c : List Char) (h : '/' ∉ c) :
    filepath.splitSlash c = [c] := by
  induction c with
  | nil => rfl
  | cons x xs ih =>
    simp only [List.mem_cons, not_or] at h
    rw [filepath.splitSlash, if_neg (Ne.symm h.1), ih h.2]

theorem filepath.splitSlash_intercalate (c : List Char) (cs : List (List Char))
    (h : ∀ x ∈ c :: cs, '/' ∉ x) :
    filepath.splitSlash (List.intercalate ['/'] (c :: cs)) = c :: cs := by
  induction cs generalizing c with
  | nil =>
    have e : List.intercalate ['/'] [c] = c := by
      simp [List.intercalate, List.intersperse]
    rw [e]
    exact filepath.splitSlash_of_no_slash c (h c (List.mem_cons_self c []))
  | cons d ds ih =>
    have e : List.intercalate ['/'] (c :: d :: ds) =
        c ++ '/' :: List.intercalate ['/'] (d :: ds) := by
      simp [List.intercalate, List.intersperse]
    rw [e, filepath.splitSlash_append,
      filepath.splitSlash_of_no_slash c (h c (List.mem_cons_self c _)),
      ih d (fun x hx => h x (List.mem_cons_of_mem c hx))]
    rfl

theorem filepath.cleanStep_plain (rooted : Bool) (out : List (List Char)) (elem : List Char)
    (h : filepath.Plain elem) : filepath.cleanStep rooted out elem = elem :: out := by
  obtain ⟨h1, h2, h3, _⟩ := h
  unfold filepath.cleanStep
  rw [if_neg (by simp [h1, h2]), if_neg h3]

theorem filepath.foldl_cleanStep_plain (rooted : Bool) (elems : List (List Char))
    (h : ∀ x ∈ elems, filepath.Plain x) (out : List (List Char)) :
    elems.foldl (filepath.cleanStep rooted) out = elems.reverse ++ out := by
  induction elems generalizing out with
  | nil => rfl
  | cons e es ih =>
    rw [List.foldl_cons, filepath.cleanStep_plain rooted out e (h e (List.mem_cons_self e es)),
      ih (fun x hx => h x (List.mem_cons_of_mem e hx))]
    simp

theorem filepath.foldl_cleanStep_kept (rooted : Bool) (D : Prop) (elems : List (List Char))
    (h : ∀ x ∈ elems, '/' ∉ x ∧ (x = ['.', '.'] → D)) (out : List (List Char))
    (hout : ∀ x ∈ out, x ≠ [] ∧ x ≠ ['.'] ∧ '/' ∉ x ∧ (x = ['.', '.'] → rooted = false ∧ D)) :
    ∀ x ∈ elems.foldl (filepath.cleanStep rooted) out,
      x ≠ [] ∧ x ≠ ['.'] ∧ '/' ∉ x ∧ (x = ['.', '.'] → rooted = false ∧ D) := by
  induction elems generalizing out with
  | nil => exact hout
  | cons e es ih =>
    rw [List.foldl_cons]
    apply ih (fun x hx => h x (List.mem_cons_of_mem e hx))
    obtain ⟨he1, he2⟩ := h e (List.mem_cons_self e es)
    unfold filepath.cleanStep
    by_cases h1 : e = [] ∨ e = ['.']
    · rw [if_pos h1]
      exact hout
    · rw [if_neg h1]
      by_cases h2 : e = ['.', '.']
      · rw [if_pos h2]
        cases out with
        | nil =>
          cases rooted with
          | true => simp
          | false =>
            intro x hx
            simp only [Bool.not_false, if_true, List.mem_singleton] at hx
            subst hx
            exact ⟨fun hc => h1 (Or.inl hc), fun hc => h1 (Or.inr hc), he1,
              fun hc => ⟨rfl, he2 hc⟩⟩
        | cons top rest =>
          simp only
          by_cases h3 : top ≠ ['.', '.']
          · rw [if_pos h3]
            exact fun x hx => hout x (List.mem_cons_of_mem top hx)
          · rw [if_neg h3]
            cases rooted with
            | true => simpa using hout
            | false =>
              intro x hx
              simp only [Bool.not_false, if_true] at hx
              rcases List.mem_cons.mp hx with rfl | hx
              · exact ⟨fun hc => h1 (Or.inl hc), fun hc => h1 (Or.inr hc), he1,
                  fun hc => ⟨rfl, he2 hc⟩⟩
              · exact hout x hx
      · rw [if_neg h2]
        intro x hx
        rcases List.mem_cons.mp hx with rfl | hx
        · exact ⟨fun hc => h1 (Or.inl hc), fun hc => h1 (Or.inr hc), he1,
            fun hc => absurd hc h2⟩
        · exact hout x hx

theorem filepath.Clean_mk (l : List Char) (hl : l ≠ []) :
    filepath.Clean (String.mk l) =
      if decide (l.head? = some '/') = true then
        "/" ++ String.mk (List.intercalate ['/']
          ((filepath.splitSlash l).foldl
            (filepath.cleanStep (decide (l.head? = some '/'))) []).reverse)
      else if (filepath.splitSlash l).foldl
          (filepath.cleanStep (decide (l.head? = some '/'))) [] = [] then "."
      else String.mk (List.intercalate ['/']
          ((filepath.splitSlash l).foldl
            (filepath.cleanStep (decide (l.head? = some '/'))) []).reverse) := by
  have hne : String.mk l ≠ "" := by
    intro hcon
    exact hl (congrArg String.toList hcon)
  unfold filepath.Clean
  rw [if_neg hne]
  rfl

theorem filepath.Clean_under_root (sep : List Char) (hsep : sep = ['/'] ∨ sep = ['/', '/'])
    (c : List Char) (cs : List (List Char)) (h : ∀ x ∈ c :: cs, filepath.Plain x) :
    filepath.Clean (String.mk ("./web/dist".toList ++ sep ++ List.intercalate ['/'] (c :: cs))) =
      String.mk ("web/dist/".toList ++ List.intercalate ['/'] (c :: cs)) := by
  have hsplit : filepath.splitSlash
      ("./web/dist".toList ++ sep ++ List.intercalate ['/'] (c :: cs)) =
      filepath.splitSlash ("./web/dist".toList ++ sep.tail) ++ (c :: cs) := by
    have e : "./web/dist".toList ++ sep ++ List.intercalate ['/'] (c :: cs) =
        ("./web/dist".toList ++ sep.tail) ++ '/' :: List.intercalate ['/'] (c :: cs) := by
      rcases hsep with rfl | rfl <;> simp
    rw [e, filepath.splitSlash_append,
      filepath.splitSlash_intercalate c cs (fun x hx => (h x hx).2.2.2)]
  have hl : "./web/dist".toList ++ sep ++ List.intercalate ['/'] (c :: cs) ≠ [] := by
    intro hcon
    have := congrArg List.length hcon
    simp at this
  have hfold : (filepath.splitSlash ("./web/dist".toList ++ sep.tail)).foldl
      (filepath.cleanStep false) [] = ["dist".toList, "web".toList] := by
    rcases hsep with rfl | rfl <;> decide
  have hrooted : (decide (("./web/dist".toList ++ sep ++ List.intercalate ['/'] (c :: cs)).head?
      = some '/')) = false := by
    rcases hsep with rfl | rfl <;> rfl
  rw [filepath.Clean_mk _ hl, hrooted, hsplit, List.foldl_append, hfold,
    filepath.foldl_cleanStep_plain false (c :: cs) h]
  rw [if_neg (by decide), if_neg (by simp)]
  congr 1
  simp [List.intercalate, List.intersperse]

theorem filepath.Join_distRoot (c : String) :
    filepath.Join [distRoot, c] =
      filepath.Clean (String.mk ("./web/dist".toList ++ ['/'] ++ c.toList)) := by
  rw [filepath.Join, if_pos (by decide)]
  cases c
  rfl

theorem underDistRoot_mk (t : List Char) :
    underDistRoot (String.mk ("web/dist/".toList ++ t)) = true := by
  unfold underDistRoot
  rw [Bool.or_eq_true]
  right
  exact List.isPrefixOf_iff_prefix.mpr (List.prefix_append _ _)

/-- A rooted reference, and a reference none of whose elements is `..`, is
read from under the asset root. -/
theorem assetPath_under_root (ref : String)
    (href : ref.toList.head? = some '/' ∨ ['.', '.'] ∉ filepath.splitSlash ref.toList) :
    underDistRoot (assetPath ref) = true := by
  cases ref with
  | mk l =>
    by_cases hl : l = []
    · subst hl
      decide
    · have hkept := filepath.foldl_cleanStep_kept (decide (l.head? = some '/'))
        (['.', '.'] ∈ filepath.splitSlash l) (filepath.splitSlash l)
        (fun x hx => ⟨filepath.splitSlash_no_slash l x hx, fun hc => hc ▸ hx⟩) []
        (fun x hx => absurd hx (List.not_mem_nil x))
      have hplain : ∀ x ∈ ((filepath.splitSlash l).foldl
          (filepath.cleanStep (decide (l.head? = some '/'))) []).reverse, filepath.Plain x := by
        intro x hx
        obtain ⟨h1, h2, h3, h4⟩ := hkept x (List.mem_reverse.mp hx)
        refine ⟨h1, h2, ?_, h3⟩
        intro hc
        obtain ⟨hr, hd⟩ := h4 hc
        rcases href with hh | hh
        · have : l.head? = some '/' := hh
          rw [decide_eq_true this] at hr
          cases hr
        · exact hh hd
      rw [assetPath, filepath.Join_distRoot, filepath.Clean_mk l hl]
      by_cases hr : decide (l.head? = some '/') = true
      · rw [if_pos hr]
        cases hout : ((filepath.splitSlash l).foldl
            (filepath.cleanStep (decide (l.head? = some '/'))) []).reverse with
        | nil => decide
        | cons c cs =>
          rw [hout] at hplain
          have e : "./web/dist".toList ++ ['/'] ++
              ("/" ++ String.mk (List.intercalate ['/'] (c :: cs))).toList =
              "./web/dist".toList ++ ['/', '/'] ++ List.intercalate ['/'] (c :: cs) := by
            simp
          rw [e, filepath.Clean_under_root ['/', '/'] (Or.inr rfl) c cs hplain]
          exact underDistRoot_mk _
      · rw [if_neg hr]
        cases hout : ((filepath.splitSlash l).foldl
            (filepath.cleanStep (decide (l.head? = some '/'))) []).reverse with
        | nil =>
          have : (filepath.splitSlash l).foldl
              (filepath.cleanStep (decide (l.head? = some '/'))) [] = [] := by
            simpa using hout
          rw [if_pos this]
          decide
        | cons c cs =>
          rw [hout] at hplain
          have : (filepath.splitSlash l).foldl
              (filepath.cleanStep (decide (l.head? = some '/'))) [] ≠ [] := by
            intro hcon
            rw [hcon] at hout
            cases hout
          rw [if_neg this]
          have e : "./web/dist".toList ++ ['/'] ++
              (String.mk (List.intercalate ['/'] (c :: cs))).toList =
              "./web/dist".toList ++ ['/'] ++ List.intercalate ['/'] (c :: cs) := rfl
          rw [e, filepath.Clean_under_root ['/'] (Or.inl rfl) c cs hplain]
          exact underDistRoot_mk _

/-! ## The properties of the specification -/

/-- C7: `collectScripts` returns, in depth-first pre-order (document order),
exactly one entry for each script element of the subtree of `head` that has
an attribute `src` with a non-empty value, the entry being the value of the
first such attribute; every other node contributes nothing. -/
theorem collectScripts_document_order (head : Node) :
    collectScripts head = (preorder head).filterMap scriptRef ∧
    ∀ (n : Node) (v : String), scriptRef n = some v ↔
      n.Typ = NodeType.ElementNode ∧ n.Data = "script" ∧
        ∃ pre a post, n.Attr = pre ++ a :: post ∧ a.Key = "src" ∧ a.Val ≠ "" ∧ a.Val = v ∧
          ∀ x ∈ pre, ¬ (x.Key = "src" ∧ x.Val ≠ "") := by
  constructor
  · rw [collectScripts, collectScripts_traverse_eq, List.nil_append]
  · intro n v
    exact scriptRef_eq_some n v

/-- C8, as the claim states it, fails: the result depends on the order of the
`href` attributes of a link element.  With the attributes `href="/a.css"`,
`href="/b.css"`, `rel="stylesheet"` the list is `/b.css`; with the same
attributes and the two `href` exchanged it is `/a.css`. -/
theorem collectStylesheets_order_dependent :
    List.Perm
      [(⟨"", "href", "/a.css"⟩ : Attribute), ⟨"", "href", "/b.css"⟩, ⟨"", "rel", "stylesheet"⟩]
      [(⟨"", "href", "/b.css"⟩ : Attribute), ⟨"", "href", "/a.css"⟩, ⟨"", "rel", "stylesheet"⟩] ∧
    collectStylesheets
        (Node.mk .ElementNode 0 "link" ""
          [⟨"", "href", "/a.css"⟩, ⟨"", "href", "/b.css"⟩, ⟨"", "rel", "stylesheet"⟩] []) =
      ["/b.css"] ∧
    collectStylesheets
        (Node.mk .ElementNode 0 "link" ""
          [⟨"", "href", "/b.css"⟩, ⟨"", "href", "/a.css"⟩, ⟨"", "rel", "stylesheet"⟩] []) =
      ["/a.css"] ∧
    collectStylesheets
        (Node.mk .ElementNode 0 "link" ""
          [⟨"", "href", "/a.css"⟩, ⟨"", "href", "/b.css"⟩, ⟨"", "rel", "stylesheet"⟩] []) ≠
      collectStylesheets
        (Node.mk .ElementNode 0 "link" ""
          [⟨"", "href", "/b.css"⟩, ⟨"", "href", "/a.css"⟩, ⟨"", "rel", "stylesheet"⟩] []) :=
  ⟨List.Perm.swap _ _ _, by decide, by decide, by decide⟩

/-- C8, amended: `collectStylesheets` returns, in depth-first pre-order
(document order), exactly one entry for each link element of the subtree of
`head` that has an attribute `rel` whose value is exactly `stylesheet` and an
attribute `href` with a non-empty value, the entry being the value of the
last such `href`; every other node contributes nothing.  What a link element
contributes does not depend on where its `rel` attributes stand among its
attributes: it is the same for two attribute lists that are permutations of
each other and hold their `href` attributes in the same order. -/
theorem collectStylesheets_document_order (head : Node) :
    collectStylesheets head = (preorder head).filterMap stylesheetRef ∧
    (∀ (n : Node) (v : String), stylesheetRef n = some v ↔
      n.Typ = NodeType.ElementNode ∧ n.Data = "link" ∧
        (∃ a ∈ n.Attr, a.Key = "rel" ∧ a.Val = "stylesheet") ∧
        ∃ pre a post, n.Attr = pre ++ a :: post ∧ a.Key = "href" ∧ a.Val ≠ "" ∧ a.Val = v ∧
          ∀ x ∈ post, ¬ (x.Key = "href" ∧ x.Val ≠ "")) ∧
    ∀ (attr1 attr2 : List Attribute), attr1.Perm attr2 →
      attr1.filter (fun a => decide (a.Key = "href")) =
        attr2.filter (fun a => decide (a.Key = "href")) →
      ∀ (t : NodeType) (a : Nat) (d ns : String) (cs : List Node),
        collectStylesheets (Node.mk t a d ns attr1 cs) =
          collectStylesheets (Node.mk t a d ns attr2 cs) := by
  refine ⟨by rw [collectStylesheets, collectStylesheets_traverse_eq, List.nil_append],
    fun n v => stylesheetRef_eq_some n v, ?_⟩
  intro attr1 attr2 hperm hhref t a d ns cs
  rw [collectStylesheets_eq, collectStylesheets_eq, preorder, preorder,
    List.filterMap_cons, List.filterMap_cons]
  have hfilter : ∀ l : List Attribute,
      l.filter (fun a => decide (a.Key = "href" ∧ a.Val ≠ "")) =
        (l.filter (fun a => decide (a.Key = "href"))).filter
          (fun a => decide (a.Val ≠ "")) := by
    intro l
    rw [List.filter_filter]
    congr 1
    funext x
    by_cases h1 : x.Key = "href" <;> by_cases h2 : x.Val = "" <;> simp [h1, h2]
  have hex : (∃ x ∈ attr1, x.Key = "rel" ∧ x.Val = "stylesheet") ↔
      (∃ x ∈ attr2, x.Key = "rel" ∧ x.Val = "stylesheet") := by
    constructor
    · rintro ⟨x, hx, h⟩
      exact ⟨x, hperm.mem_iff.mp hx, h⟩
    · rintro ⟨x, hx, h⟩
      exact ⟨x, hperm.mem_iff.mpr hx, h⟩
  have hnode : stylesheetRef (Node.mk t a d ns attr1 cs) =
      stylesheetRef (Node.mk t a d ns attr2 cs) := by
    simp only [stylesheetRef, Node.Typ, Node.Data, Node.Attr]
    rw [hfilter attr1, hfilter attr2, hhref]
    simp only [hex]
  rw [hnode]

/-- Witness of C8 amended: a link element with `href` before `rel` and the same
element with `rel` before `href` yield the same list. -/
theorem collectStylesheets_document_order_witness :
    collectStylesheets
        (Node.mk .ElementNode 0 "link" "" [⟨"", "href", "/app.css"⟩, ⟨"", "rel", "stylesheet"⟩] []) =
      collectStylesheets
        (Node.mk .ElementNode 0 "link" "" [⟨"", "rel", "stylesheet"⟩, ⟨"", "href", "/app.css"⟩] []) :=
  (collectStylesheets_document_order exampleDoc).2.2 _ _ (List.Perm.swap _ _ _) (by decide)
    .ElementNode 0 "link" "" []

/-- C9, as the claim states it, fails: in a document with two head elements
and two body elements, `findNodes` does not select the first head and the
first body in depth-first pre-order. -/
theorem findNodes_not_first :
    findNodes twoHeadsDoc = (some [0, 1], some [0, 3]) ∧
    (elementsNamed "head" twoHeadsDoc).head? = some [0, 0] ∧
    (elementsNamed "body" twoHeadsDoc).head? = some [0, 2] ∧
    (findNodes twoHeadsDoc).1 ≠ (elementsNamed "head" twoHeadsDoc).head? ∧
    (findNodes twoHeadsDoc).2 ≠ (elementsNamed "body" twoHeadsDoc).head? := by
  decide

/-- C9, amended: the head and body that `findNodes` selects are the last
element named head and the last element named body in depth-first pre-order
(none when the document has no such element); they are the first ones when
the document has at most one element of that name. -/
theorem findNodes_selects_last (doc : Node) :
    (findNodes doc).1 = (elementsNamed "head" doc).getLast? ∧
    (findNodes doc).2 = (elementsNamed "body" doc).getLast? ∧
    ((elementsNamed "head" doc).length ≤ 1 →
      (findNodes doc).1 = (elementsNamed "head" doc).head?) ∧
    ((elementsNamed "body" doc).length ≤ 1 →
      (findNodes doc).2 = (elementsNamed "body" doc).head?) := by
  have one : ∀ l : List Path, l.length ≤ 1 → l.getLast? = l.head? := by
    intro l hl
    match l, hl with
    | [], _ => rfl
    | [_], _ => rfl
    | _ :: _ :: _, h => simp at h
  rw [findNodes_eq]
  exact ⟨rfl, rfl, one _, one _⟩

/-- Witness of C9 amended: in the example document the head and the body are
the only ones, and `findNodes` selects them. -/
theorem findNodes_selects_last_witness :
    (elementsNamed "head" exampleDoc).length ≤ 1 ∧
    (elementsNamed "body" exampleDoc).length ≤ 1 ∧
    (findNodes exampleDoc).1 = some [0, 0] ∧ (findNodes exampleDoc).2 = some [0, 1] :=
  ⟨by decide, by decide,
    ((findNodes_selects_last exampleDoc).2.2.1 (by decide)).trans (by decide),
    ((findNodes_selects_last exampleDoc).2.2.2 (by decide)).trans (by decide)⟩

/-- C4: when the parsed entry document has no head element, or no body
element, `getProcessedHTML` returns without error the contents of
`index.html` as read, and reads no other file: the only read is that of
`web/dist/index.html`. -/
theorem getProcessedHTML_missing_section (Parse : String → Except String Node)
    (Render : Node → Except String String) (w : World) (content : String) (doc : Node)
    (hread : w.files "web/dist/index.html" = .ok content)
    (hparse : Parse content = .ok doc)
    (hmiss : elementsNamed "head" doc = [] ∨ elementsNamed "body" doc = []) :
    getProcessedHTML Parse Render w =
      (.ok content, { files := w.files, reads := w.reads ++ ["web/dist/index.html"] }) := by
  have hpath : filepath.Join [distRoot, "index.html"] = "web/dist/index.html" := by decide
  simp only [getProcessedHTML, ReadFile, hpath, hread, hparse]
  have hmiss' : (findNodes doc).1 = none ∨ (findNodes doc).2 = none := by
    rw [findNodes_eq]
    rcases hmiss with h | h
    · exact Or.inl (by rw [h]; rfl)
    · exact Or.inr (by rw [h]; rfl)
  rcases hf : findNodes doc with ⟨head, body⟩
  rw [hf] at hmiss'
  simp only at hmiss'
  rcases hmiss' with h | h
  · subst h
    rfl
  · subst h
    cases head <;> rfl

/-- Witness of C4: a frameset document has a head and no body; the contents
of `index.html` are returned as they are and `app.js` is not read. -/
theorem getProcessedHTML_missing_section_witness :
    elementsNamed "body" framesetDoc = [] ∧
    getProcessedHTML (fun _ => .ok framesetDoc) (fun _ => .ok "rendered")
        { files := fun name =>
            if name = "web/dist/index.html" then .ok "<frameset></frameset>"
            else .ok "console.log(1)",
          reads := [] } =
      (.ok "<frameset></frameset>",
       { files := fun name =>
            if name = "web/dist/index.html" then .ok "<frameset></frameset>"
            else .ok "console.log(1)",
         reads := [] ++ ["web/dist/index.html"] }) :=
  ⟨by decide,
   getProcessedHTML_missing_section (fun _ => .ok framesetDoc) (fun _ => .ok "rendered")
     { files := fun name =>
         if name = "web/dist/index.html" then .ok "<frameset></frameset>"
         else .ok "console.log(1)",
       reads := [] }
     "<frameset></frameset>" framesetDoc (by simp) rfl (Or.inr (by decide))⟩

/-- C6: for a request whose URL path is not exactly `/`, `homeHandler`
replies with the not-found response (status 404) and leaves the filesystem
untouched: no file is read, so `getProcessedHTML` is not invoked, and the
response is the same whatever the state of the files. -/
theorem homeHandler_not_found (Parse : String → Except String Node)
    (Render : Node → Except String String) (urlPath : String) (w : World)
    (hpath : urlPath ≠ "/") :
    homeHandler Parse Render urlPath w =
        ({ status := 404, contentType := "text/plain; charset=utf-8",
           body := "404 page not found\n" }, w) ∧
      ∀ (Parse' : String → Except String Node) (Render' : Node → Except String String)
        (w' : World),
        (homeHandler Parse' Render' urlPath w').1 = (homeHandler Parse Render urlPath w).1 := by
  have key : ∀ (P : String → Except String Node) (R : Node → Except String String)
      (v : World), homeHandler P R urlPath v =
        ({ status := 404, contentType := "text/plain; charset=utf-8",
           body := "404 page not found\n" }, v) := by
    intro P R v
    rw [homeHandler, if_pos hpath]
    rfl
  exact ⟨key Parse Render w, fun P R v => by rw [key P R v, key Parse Render w]⟩

/-- Witness of C6: a request for `/favicon.ico` is answered with status 404
and nothing is read. -/
theorem homeHandler_not_found_witness :
    (homeHandler (fun _ => .ok exampleDoc) (fun _ => .ok "rendered") "/favicon.ico"
        exampleWorld).1.status = 404 ∧
    (homeHandler (fun _ => .ok exampleDoc) (fun _ => .ok "rendered") "/favicon.ico"
        exampleWorld).2.reads = [] :=
  ⟨congrArg (fun r => r.1.status)
      (homeHandler_not_found (fun _ => .ok exampleDoc) (fun _ => .ok "rendered") "/favicon.ico"
        exampleWorld (by decide)).1,
   congrArg (fun r => r.2.reads)
      (homeHandler_not_found (fun _ => .ok exampleDoc) (fun _ => .ok "rendered") "/favicon.ico"
        exampleWorld (by decide)).1⟩

/-- C5, evaluation at a failing input: for the reference
`../../../etc/passwd` the file that `embedScript` and `embedStylesheet` read
is `../etc/passwd`, which is not under `web/dist`; for `../secret.js` it is
`web/secret.js`.  A rooted reference such as `/app.js` stays under the root. -/
theorem assetPath_escapes_root :
    assetPath "../../../etc/passwd" = "../etc/passwd" ∧
    underDistRoot (assetPath "../../../etc/passwd") = false ∧
    assetPath "../secret.js" = "web/secret.js" ∧
    underDistRoot (assetPath "../secret.js") = false ∧
    assetPath "/app.js" = "web/dist/app.js" ∧
    underDistRoot (assetPath "/app.js") = true ∧
    (∀ (doc : Node) (body : Path) (w : World),
      (embedScript doc body "../../../etc/passwd" w).2.2.reads =
        w.reads ++ ["../etc/passwd"]) ∧
    (∀ (doc : Node) (head : Path) (w : World),
      (embedStylesheet doc head "../../../etc/passwd" w).2.2.reads =
        w.reads ++ ["../etc/passwd"]) := by
  have e : assetPath "../../../etc/passwd" = "../etc/passwd" := by decide
  refine ⟨e, by decide, by decide, by decide, by decide, by decide, ?_, ?_⟩
  · intro doc body w
    rw [embedScript_eq, e]
  · intro doc head w
    rw [embedStylesheet_eq, e]

/-- C1: in a document where `findNodes` selects a head and a body, when every
file referenced from the head can be read, the inlining steps of
`getProcessedHTML` leave the body with exactly as many more children as there
are script references, the new children being, in the order of the
references, script elements with no attribute and a single text child that
holds the contents of the file; and leave the head with exactly as many more
children as there are stylesheet references, the new children being, in the
order of the references, style elements with a single text child that holds
the contents of the file. -/
theorem inlineAssets_all_readable (doc : Node) (hp bp : Path) (w : World) (h b : Node)
    (scriptFiles styleFiles : List String)
    (hfind : findNodes doc = (some hp, some bp))
    (hh : doc.get? hp = some h) (hb : doc.get? bp = some b)
    (hscripts : List.Forall₂ (fun ref content => w.files (assetPath ref) = .ok content)
      (collectScripts h) scriptFiles)
    (hstyles : List.Forall₂ (fun ref content => w.files (assetPath ref) = .ok content)
      (collectStylesheets h) styleFiles) :
    ∃ h' b', (inlineAssets doc hp bp w).1.get? hp = some h' ∧
      (inlineAssets doc hp bp w).1.get? bp = some b' ∧
      b'.children.length = b.children.length + (collectScripts h).length ∧
      b'.children.drop b.children.length =
        scriptFiles.map (fun content =>
          Node.mk NodeType.ElementNode 0 "script" "" []
            [Node.mk NodeType.TextNode 0 content "" [] []]) ∧
      h'.children.length = h.children.length + (collectStylesheets h).length ∧
      h'.children.drop h.children.length =
        styleFiles.map (fun content =>
          Node.mk NodeType.ElementNode 0 "style" "" []
            [Node.mk NodeType.TextNode 0 content "" [] []]) := by
  have hne := findNodes_ne doc hp bp hfind
  have hS := inlinedFor_of_forall₂ "script" w _ _ hscripts
  have hT := inlinedFor_of_forall₂ "style" w _ _ hstyles
  obtain ⟨h', hget, hlen, hdrop, _, _⟩ :=
    inlined_head_children doc hp bp w (collectScripts h) (collectStylesheets h) h hh hne
  obtain ⟨b', bget, blen, bdrop⟩ :=
    inlined_body doc hp bp (inlinedFor "script" w (collectScripts h))
      (inlinedFor "style" w (collectStylesheets h)) h b hh hb hne
  rw [inlineAssets_eq doc hp bp w h hh]
  refine ⟨h', b', hget, bget, ?_, ?_, ?_, ?_⟩
  · rw [blen, hS, List.length_map, hscripts.length_eq]
  · rw [bdrop, hS]
    rfl
  · rw [hlen, hT, List.length_map, hstyles.length_eq]
  · rw [hdrop, hT]
    rfl

/-- Witness of C1, the example of the specification: the head holds a script
reference to `/app.js` and a stylesheet link to `/app.css`; after inlining the
body holds a script element whose text is `console.log(1)` and the head has
gained a style element whose text is `body{color:red}`. -/
theorem inlineAssets_all_readable_witness :
    ∃ h' b', (inlineAssets exampleDoc [0, 0] [0, 1] exampleWorld).1.get? [0, 0] = some h' ∧
      (inlineAssets exampleDoc [0, 0] [0, 1] exampleWorld).1.get? [0, 1] = some b' ∧
      b'.children.length = 0 + 1 ∧
      b'.children.drop 0 =
        [Node.mk NodeType.ElementNode 0 "script" "" []
          [Node.mk NodeType.TextNode 0 "console.log(1)" "" [] []]] ∧
      h'.children.length = 2 + 1 ∧
      h'.children.drop 2 =
        [Node.mk NodeType.ElementNode 0 "style" "" []
          [Node.mk NodeType.TextNode 0 "body\x7bcolor:red\x7d" "" [] []]] :=
  inlineAssets_all_readable exampleDoc [0, 0] [0, 1] exampleWorld
    (.mk .ElementNode 0 "head" "" []
      [.mk .ElementNode 0 "script" "" [⟨"", "src", "/app.js"⟩] [],
       .mk .ElementNode 0 "link" "" [⟨"", "rel", "stylesheet"⟩, ⟨"", "href", "/app.css"⟩] []])
    (.mk .ElementNode 0 "body" "" [] [])
    ["console.log(1)"] ["body\x7bcolor:red\x7d"]
    (by decide) rfl rfl
    (List.Forall₂.cons (by rfl) List.Forall₂.nil)
    (List.Forall₂.cons (by rfl) List.Forall₂.nil)

/-- C3: files that cannot be read do not make the inlining fail.  In a
document where `findNodes` selects a head and a body, the inlining steps
append to the body one script element for each script reference whose file
can be read, in the order of the references, and nothing for the others, and
likewise style elements to the head; a call of `embedScript` or
`embedStylesheet` that returns an error leaves the document as it was; and
`getProcessedHTML` returns the rendering of the inlined document whenever
`index.html` is read and parsed and the rendering succeeds. -/
theorem inlineAssets_skips_unreadable (doc : Node) (hp bp : Path) (w : World) (h b : Node)
    (hfind : findNodes doc = (some hp, some bp))
    (hh : doc.get? hp = some h) (hb : doc.get? bp = some b) :
    (∃ h' b', (inlineAssets doc hp bp w).1.get? hp = some h' ∧
      (inlineAssets doc hp bp w).1.get? bp = some b' ∧
      b'.children.length =
        b.children.length + (inlinedFor "script" w (collectScripts h)).length ∧
      b'.children.drop b.children.length = inlinedFor "script" w (collectScripts h) ∧
      h'.children.length =
        h.children.length + (inlinedFor "style" w (collectStylesheets h)).length ∧
      h'.children.drop h.children.length = inlinedFor "style" w (collectStylesheets h)) ∧
    (∀ (d : Node) (p : Path) (ref : String) (v : World) (err : String),
      (embedScript d p ref v).1 = some err → (embedScript d p ref v).2.1 = d) ∧
    (∀ (d : Node) (p : Path) (ref : String) (v : World) (err : String),
      (embedStylesheet d p ref v).1 = some err → (embedStylesheet d p ref v).2.1 = d) ∧
    (∀ (Parse : String → Except String Node) (Render : Node → Except String String)
      (content s : String),
      w.files "web/dist/index.html" = .ok content → Parse content = .ok doc →
      Render (inlineAssets doc hp bp w).1 = .ok s →
      (getProcessedHTML Parse Render w).1 = .ok s) := by
  have hne := findNodes_ne doc hp bp hfind
  refine ⟨?_, ?_, ?_, ?_⟩
  · obtain ⟨h', hget, hlen, hdrop, _, _⟩ :=
      inlined_head_children doc hp bp w (collectScripts h) (collectStylesheets h) h hh hne
    obtain ⟨b', bget, blen, bdrop⟩ :=
      inlined_body doc hp bp (inlinedFor "script" w (collectScripts h))
        (inlinedFor "style" w (collectStylesheets h)) h b hh hb hne
    rw [inlineAssets_eq doc hp bp w h hh]
    exact ⟨h', b', hget, bget, blen, bdrop, hlen, hdrop⟩
  · intro d p ref v err herr
    rw [embedScript_eq] at herr ⊢
    simp only at herr ⊢
    cases hf : v.files (assetPath ref) with
    | ok c => rw [hf] at herr; cases herr
    | error e => simp [inlinedFor, hf, Node.appendChildrenAt_nil]
  · intro d p ref v err herr
    rw [embedStylesheet_eq] at herr ⊢
    simp only at herr ⊢
    cases hf : v.files (assetPath ref) with
    | ok c => rw [hf] at herr; cases herr
    | error e => simp [inlinedFor, hf, Node.appendChildrenAt_nil]
  · intro Parse Render content s hread hparse hrender
    have hpath : filepath.Join [distRoot, "index.html"] = "web/dist/index.html" := by decide
    have hdoc : (inlineAssets doc hp bp
        { files := w.files, reads := w.reads ++ ["web/dist/index.html"] }).1 =
        (inlineAssets doc hp bp w).1 := by
      rw [inlineAssets_eq doc hp bp _ h hh, inlineAssets_eq doc hp bp w h hh]
      simp only
      rw [inlinedFor_congr "script" w
          { files := w.files, reads := w.reads ++ ["web/dist/index.html"] } _ rfl,
        inlinedFor_congr "style" w
          { files := w.files, reads := w.reads ++ ["web/dist/index.html"] } _ rfl]
    simp only [getProcessedHTML, ReadFile, hpath, hread, hparse, hfind]
    rw [← hdoc] at hrender
    rcases hi : inlineAssets doc hp bp
      { files := w.files, reads := w.reads ++ ["web/dist/index.html"] } with ⟨doc2, w2⟩
    rw [hi] at hrender
    simp only at hrender ⊢
    rw [hrender]

/-- Witness of C3: in the example document with `app.js` missing, the body
gains nothing and the head gains the style element of `app.css`. -/
theorem inlineAssets_skips_unreadable_witness :
    ∃ h' b', (inlineAssets exampleDoc [0, 0] [0, 1] cssOnlyWorld).1.get? [0, 0] = some h' ∧
      (inlineAssets exampleDoc [0, 0] [0, 1] cssOnlyWorld).1.get? [0, 1] = some b' ∧
      b'.children.length = 0 + 0 ∧
      b'.children.drop 0 = [] ∧
      h'.children.length = 2 + 1 ∧
      h'.children.drop 2 =
        [Node.mk NodeType.ElementNode 0 "style" "" []
          [Node.mk NodeType.TextNode 0 "body\x7bcolor:red\x7d" "" [] []]] :=
  (inlineAssets_skips_unreadable exampleDoc [0, 0] [0, 1] cssOnlyWorld exampleHead exampleBody
    (by decide) rfl rfl).1

/-- C10: inlining only appends.  In a document where `findNodes` selects a
head and a body, every node of the document is, after the inlining steps, at
the same path with the same type, tag name or text, namespace and attributes,
and with the same number of children unless it is the head or the body, which
keep their children and gain new ones after the last: script elements in the
body, style elements in the head, none of them with an attribute.  The
original script and link elements are kept, so `collectScripts` and
`collectStylesheets` return on the resulting head the lists they returned
before. -/
theorem inlineAssets_only_appends (doc : Node) (hp bp : Path) (w : World) (h b : Node)
    (hfind : findNodes doc = (some hp, some bp))
    (hh : doc.get? hp = some h) (hb : doc.get? bp = some b) :
    (∀ (q : Path) (n : Node), doc.get? q = some n →
      ∃ n', (inlineAssets doc hp bp w).1.get? q = some n' ∧
        n'.Typ = n.Typ ∧ n'.DataAtom = n.DataAtom ∧ n'.Data = n.Data ∧
        n'.Namespace = n.Namespace ∧ n'.Attr = n.Attr ∧
        n.children.length ≤ n'.children.length ∧
        (q ≠ hp → q ≠ bp → n'.children.length = n.children.length)) ∧
    (∃ h' b', (inlineAssets doc hp bp w).1.get? hp = some h' ∧
      (inlineAssets doc hp bp w).1.get? bp = some b' ∧
      (∀ x ∈ b'.children.drop b.children.length,
        x.Typ = NodeType.ElementNode ∧ x.Data = "script" ∧ x.Attr = []) ∧
      (∀ x ∈ h'.children.drop h.children.length,
        x.Typ = NodeType.ElementNode ∧ x.Data = "style" ∧ x.Attr = []) ∧
      collectScripts h' = collectScripts h ∧
      collectStylesheets h' = collectStylesheets h) := by
  have hne := findNodes_ne doc hp bp hfind
  rw [inlineAssets_eq doc hp bp w h hh]
  refine ⟨fun q n hq => inlined_frame doc hp bp _ _ q n hq, ?_⟩
  obtain ⟨h', hget, _, hdrop, hcs, hcss⟩ :=
    inlined_head_children doc hp bp w (collectScripts h) (collectStylesheets h) h hh hne
  obtain ⟨b', bget, _, bdrop⟩ :=
    inlined_body doc hp bp (inlinedFor "script" w (collectScripts h))
      (inlinedFor "style" w (collectStylesheets h)) h b hh hb hne
  refine ⟨h', b', hget, bget, ?_, ?_, hcs, hcss⟩
  · intro x hx
    rw [bdrop] at hx
    obtain ⟨content, rfl⟩ := mem_inlinedFor "script" w _ x hx
    exact ⟨rfl, rfl, rfl⟩
  · intro x hx
    rw [hdrop] at hx
    obtain ⟨content, rfl⟩ := mem_inlinedFor "style" w _ x hx
    exact ⟨rfl, rfl, rfl⟩

/-- Witness of C10: in the example, after inlining, the script element of the
head is still the first child of the head, with its `src` attribute, and the
head still yields the same script and stylesheet references. -/
theorem inlineAssets_only_appends_witness :
    (∃ n', (inlineAssets exampleDoc [0, 0] [0, 1] exampleWorld).1.get? [0, 0, 0] = some n' ∧
      n'.Data = "script" ∧ n'.Attr = [⟨"", "src", "/app.js"⟩]) ∧
    (∃ h', (inlineAssets exampleDoc [0, 0] [0, 1] exampleWorld).1.get? [0, 0] = some h' ∧
      collectScripts h' = ["/app.js"] ∧ collectStylesheets h' = ["/app.css"]) := by
  have key := inlineAssets_only_appends exampleDoc [0, 0] [0, 1] exampleWorld exampleHead
    exampleBody (by decide) rfl rfl
  constructor
  · obtain ⟨n', h1, _, _, h2, _, h3, _⟩ := key.1 [0, 0, 0]
      (.mk .ElementNode 0 "script" "" [⟨"", "src", "/app.js"⟩] []) rfl
    exact ⟨n', h1, h2, h3⟩
  · obtain ⟨h', _, h1, _, _, _, h2, h3⟩ := key.2
    exact ⟨h', h1, h2, h3⟩

end Frontend
